import Mathlib

/-!
# Verification of the spin-bath Hamiltonian construction

A shallow embedding of `SpinBathEuTest.py`: generation of spin operators,
tensor-product (Kronecker) embedding of local operators into the composite
space, assembly of the hyperfine / superhyperfine / Zeeman Hamiltonians,
and the derived transition queries.

Conventions used throughout:

* A spin quantum number `s` (a non-negative half-integer) is represented by
  its double `t : ℕ`, so `s = t / 2` and the operator dimension
  `int(2 * s + 1)` is `t + 1`.
* Floating point arithmetic is modelled by exact arithmetic over `ℝ` / `ℂ`.
* `numpy` arrays appearing in the Hamiltonian pipeline are modelled by the
  type `Np` below: either a scalar (a Python/`numpy` scalar such as the
  literal `0` the superhyperfine accumulators start from), a square matrix
  of some dimension, or `err`, which models the `ValueError` raised by
  `numpy` when an operation is applied to arrays of incompatible shapes.
-/

noncomputable section

namespace SpinBath

/-! ## Spin operator generation (`generate_spin_matrices`)

The source builds, for a spin `s`, the descending list
`desc = [s, s-1, ..., -s]`, puts `desc` on the diagonal of `Sz`, and fills
the super/sub-diagonals of `Sx`, `Sy` with
`(1/2) * sqrt(s*(s+1) - desc[row]*desc[row±1])` (with a `∓ i` phase for
`Sy`).  With `s = t/2`, `desc[r] = t/2 - r`. -/

/-- `desc[r] = s - r`, the magnetic quantum number indexing row `r`. -/
def mval (t : ℕ) (r : ℕ) : ℝ := (t : ℝ) / 2 - (r : ℝ)

/-- The off-diagonal coefficient `sqrt(s*(s+1) - desc[r]*desc[r+1])`
attached to the adjacent pair of rows `(r, r+1)`. -/
def aval (t : ℕ) (r : ℕ) : ℝ :=
  Real.sqrt ((t : ℝ) / 2 * ((t : ℝ) / 2 + 1) - mval t r * mval t (r + 1))

/-- A tridiagonal matrix with zero diagonal: `u r` at `(r, r+1)` and `v c`
at `(c+1, c)`. Both `sx` and `sy` have this shape. -/
def triM (t : ℕ) (u v : ℕ → ℂ) : Matrix (Fin (t + 1)) (Fin (t + 1)) ℂ :=
  fun r c =>
    if (r : ℕ) + 1 = (c : ℕ) then u (r : ℕ)
    else if (c : ℕ) + 1 = (r : ℕ) then v (c : ℕ) else 0

/-- A diagonal matrix with entries `d r`. -/
def diagM (t : ℕ) (d : ℕ → ℂ) : Matrix (Fin (t + 1)) (Fin (t + 1)) ℂ :=
  fun r c => if (r : ℕ) = (c : ℕ) then d (r : ℕ) else 0

/-- `sx`: `(1/2)*sqrt(...)` on both the super- and sub-diagonal. -/
def sxM (t : ℕ) : Matrix (Fin (t + 1)) (Fin (t + 1)) ℂ :=
  triM t (fun r => ((1 / 2 * aval t r : ℝ) : ℂ)) (fun c => ((1 / 2 * aval t c : ℝ) : ℂ))

/-- `sy`: `-(i/2)*sqrt(...)` on the super-diagonal and `(i/2)*sqrt(...)` on
the sub-diagonal. -/
def syM (t : ℕ) : Matrix (Fin (t + 1)) (Fin (t + 1)) ℂ :=
  triM t (fun r => -(Complex.I / 2) * ((aval t r : ℝ) : ℂ))
    (fun c => (Complex.I / 2) * ((aval t c : ℝ) : ℂ))

/-- `sz`: diagonal `desc`. -/
def szM (t : ℕ) : Matrix (Fin (t + 1)) (Fin (t + 1)) ℂ :=
  diagM t (fun r => ((mval t r : ℝ) : ℂ))

/-- `generate_spin_matrices(spin)`.  For spin `0` the source returns three
shape-`(1,)` zero arrays, which act as the `1 × 1` zero matrix in every
context they are used in (and the general formula below also yields the
`1 × 1` zero matrix at `t = 0`, since no adjacent row pair exists and
`desc = [0]`). -/
def generate_spin_matrices (t : ℕ) :
    Matrix (Fin (t + 1)) (Fin (t + 1)) ℂ × Matrix (Fin (t + 1)) (Fin (t + 1)) ℂ ×
      Matrix (Fin (t + 1)) (Fin (t + 1)) ℂ :=
  (sxM t, syM t, szM t)

/-! ### Arithmetic facts about the coefficients -/

lemma arg_factor (t r : ℕ) :
    (t : ℝ) / 2 * ((t : ℝ) / 2 + 1) - mval t r * mval t (r + 1)
      = ((t : ℝ) - (r : ℝ)) * ((r : ℝ) + 1) := by
  simp only [mval]
  push_cast
  ring

lemma aval_eq (t r : ℕ) : aval t r = Real.sqrt (((t : ℝ) - (r : ℝ)) * ((r : ℝ) + 1)) := by
  rw [aval, arg_factor]

lemma aval_sq (t r : ℕ) (h : r ≤ t) :
    aval t r * aval t r = ((t : ℝ) - (r : ℝ)) * ((r : ℝ) + 1) := by
  rw [aval_eq]
  exact Real.mul_self_sqrt (by
    have : (r : ℝ) ≤ (t : ℝ) := by exact_mod_cast h
    nlinarith)

lemma aval_top (t : ℕ) : aval t t = 0 := by
  rw [aval_eq]
  simp

lemma aval_nonneg (t r : ℕ) : 0 ≤ aval t r := Real.sqrt_nonneg _

/-! ### Sum-collapsing lemmas for tridiagonal products -/

lemma fin_sum_ite_eq {n : ℕ} (f : Fin n → ℂ) (j : ℕ) :
    (∑ k : Fin n, if (k : ℕ) = j then f k else 0)
      = if h : j < n then f ⟨j, h⟩ else 0 := by
  split
  · next h =>
    rw [Finset.sum_eq_single (⟨j, h⟩ : Fin n)]
    · simp
    · intro k _ hk
      rw [if_neg]
      intro hkj
      exact hk (Fin.ext hkj)
    · intro hmem
      exact absurd (Finset.mem_univ _) hmem
  · next h =>
    apply Finset.sum_eq_zero
    intro k _
    rw [if_neg]
    intro hkj
    exact h (hkj ▸ k.isLt)

/-- Split a tridiagonal entry into a sum of two guarded terms. -/
lemma triM_apply_split (t : ℕ) (u v : ℕ → ℂ) (r c : Fin (t + 1)) :
    triM t u v r c
      = (if (r : ℕ) + 1 = (c : ℕ) then u (r : ℕ) else 0)
        + (if (c : ℕ) + 1 = (r : ℕ) then v (c : ℕ) else 0) := by
  unfold triM
  by_cases h1 : (r : ℕ) + 1 = (c : ℕ)
  · have h2 : ¬ ((c : ℕ) + 1 = (r : ℕ)) := by omega
    simp [h1, h2]
  · by_cases h2 : (c : ℕ) + 1 = (r : ℕ) <;> simp [h1, h2]

/-- The product of two tridiagonal matrices, entrywise. -/
lemma triM_mul_apply (t : ℕ) (u1 v1 u2 v2 : ℕ → ℂ) (r c : Fin (t + 1)) :
    (triM t u1 v1 * triM t u2 v2) r c
      = (if h : (r : ℕ) + 1 < t + 1 then
            u1 (r : ℕ) * triM t u2 v2 ⟨(r : ℕ) + 1, h⟩ c else 0)
        + (if h : (r : ℕ) - 1 < t + 1 ∧ 1 ≤ (r : ℕ) then
            v1 ((r : ℕ) - 1) * triM t u2 v2 ⟨(r : ℕ) - 1, h.1⟩ c else 0) := by
  rw [Matrix.mul_apply]
  have hsplit : ∀ k : Fin (t + 1),
      triM t u1 v1 r k * triM t u2 v2 k c
        = (if (k : ℕ) = (r : ℕ) + 1 then u1 (r : ℕ) * triM t u2 v2 k c else 0)
          + (if (k : ℕ) = (r : ℕ) - 1 ∧ 1 ≤ (r : ℕ) then
              v1 ((r : ℕ) - 1) * triM t u2 v2 k c else 0) := by
    intro k
    rw [triM_apply_split, add_mul]
    congr 1
    · by_cases h : (r : ℕ) + 1 = (k : ℕ)
      · rw [if_pos h, if_pos h.symm]
      · rw [if_neg h, if_neg (fun hk => h hk.symm), zero_mul]
    · by_cases h : (k : ℕ) + 1 = (r : ℕ)
      · have hc : (k : ℕ) = (r : ℕ) - 1 ∧ 1 ≤ (r : ℕ) := by omega
        rw [if_pos h, if_pos hc, hc.1]
      · rw [if_neg h, if_neg (by omega), zero_mul]
  rw [Finset.sum_congr rfl (fun k _ => hsplit k), Finset.sum_add_distrib]
  congr 1
  · rw [fin_sum_ite_eq (fun k => u1 (r : ℕ) * triM t u2 v2 k c) ((r : ℕ) + 1)]
  · have := fin_sum_ite_eq
      (fun k => if 1 ≤ (r : ℕ) then v1 ((r : ℕ) - 1) * triM t u2 v2 k c else 0)
      ((r : ℕ) - 1)
    by_cases hr : 1 ≤ (r : ℕ)
    · have heq : ∀ k : Fin (t + 1),
          (if (k : ℕ) = (r : ℕ) - 1 ∧ 1 ≤ (r : ℕ) then
              v1 ((r : ℕ) - 1) * triM t u2 v2 k c else 0)
            = (if (k : ℕ) = (r : ℕ) - 1 then
                v1 ((r : ℕ) - 1) * triM t u2 v2 k c else 0) := by
        intro k
        by_cases hk : (k : ℕ) = (r : ℕ) - 1
        · simp [hk, hr]
        · simp [hk]
      rw [Finset.sum_congr rfl (fun k _ => heq k),
        fin_sum_ite_eq (fun k => v1 ((r : ℕ) - 1) * triM t u2 v2 k c) ((r : ℕ) - 1)]
      have hlt : (r : ℕ) - 1 < t + 1 := by omega
      rw [dif_pos hlt, dif_pos ⟨hlt, hr⟩]
    · have heq : ∀ k : Fin (t + 1),
          (if (k : ℕ) = (r : ℕ) - 1 ∧ 1 ≤ (r : ℕ) then
              v1 ((r : ℕ) - 1) * triM t u2 v2 k c else 0) = 0 := by
        intro k
        rw [if_neg]
        intro hk
        exact hr hk.2
      rw [Finset.sum_congr rfl (fun k _ => heq k), Finset.sum_const_zero,
        dif_neg (by omega)]

/-- Product of a diagonal and a tridiagonal matrix, entrywise. -/
lemma diagM_mul_apply (t : ℕ) (d : ℕ → ℂ) (M : Matrix (Fin (t + 1)) (Fin (t + 1)) ℂ)
    (r c : Fin (t + 1)) : (diagM t d * M) r c = d (r : ℕ) * M r c := by
  rw [Matrix.mul_apply]
  have hsplit : ∀ k : Fin (t + 1),
      diagM t d r k * M k c = if (k : ℕ) = (r : ℕ) then d (r : ℕ) * M k c else 0 := by
    intro k
    unfold diagM
    by_cases h : (r : ℕ) = (k : ℕ)
    · rw [if_pos h, if_pos h.symm, h]
    · rw [if_neg h, if_neg (fun hk => h hk.symm), zero_mul]
  rw [Finset.sum_congr rfl (fun k _ => hsplit k), fin_sum_ite_eq, dif_pos r.isLt]

lemma mul_diagM_apply (t : ℕ) (d : ℕ → ℂ) (M : Matrix (Fin (t + 1)) (Fin (t + 1)) ℂ)
    (r c : Fin (t + 1)) : (M * diagM t d) r c = M r c * d (c : ℕ) := by
  rw [Matrix.mul_apply]
  have hsplit : ∀ k : Fin (t + 1),
      M r k * diagM t d k c = if (k : ℕ) = (c : ℕ) then M r k * d (c : ℕ) else 0 := by
    intro k
    unfold diagM
    by_cases h : (k : ℕ) = (c : ℕ)
    · rw [if_pos h, if_pos h, h]
    · rw [if_neg h, if_neg h, mul_zero]
  rw [Finset.sum_congr rfl (fun k _ => hsplit k), fin_sum_ite_eq, dif_pos c.isLt]

/-- `triM_mul_apply` with the inner entries spelled out over `ℕ` indices. -/
lemma triM_mul_expand (t : ℕ) (u1 v1 u2 v2 : ℕ → ℂ) (r c : Fin (t + 1)) :
    (triM t u1 v1 * triM t u2 v2) r c
      = (if (r : ℕ) + 1 < t + 1 then
            u1 (r : ℕ) * (if (r : ℕ) + 1 + 1 = (c : ℕ) then u2 ((r : ℕ) + 1)
              else if (c : ℕ) + 1 = (r : ℕ) + 1 then v2 (c : ℕ) else 0)
          else 0)
        + (if 1 ≤ (r : ℕ) then
            v1 ((r : ℕ) - 1) * (if (r : ℕ) - 1 + 1 = (c : ℕ) then u2 ((r : ℕ) - 1)
              else if (c : ℕ) + 1 = (r : ℕ) - 1 then v2 (c : ℕ) else 0)
          else 0) := by
  by_cases ha : (r : ℕ) + 1 < t + 1 <;> by_cases hb : 1 ≤ (r : ℕ)
  · rw [triM_mul_apply, dif_pos ha, dif_pos ⟨by omega, hb⟩, if_pos ha, if_pos hb]
    rfl
  · rw [triM_mul_apply, dif_pos ha, dif_neg (fun hh => hb hh.2), if_pos ha, if_neg hb]
    rfl
  · rw [triM_mul_apply, dif_neg ha, dif_pos ⟨by omega, hb⟩, if_neg ha, if_pos hb]
    rfl
  · rw [triM_mul_apply, dif_neg ha, dif_neg (fun hh => hb hh.2), if_neg ha, if_neg hb]

/-! ### Cast helpers -/

lemma mvalC (t r : ℕ) : ((mval t r : ℝ) : ℂ) = (t : ℂ) / 2 - (r : ℂ) := by
  unfold mval
  push_cast
  ring

lemma avalC_sq (t r : ℕ) (h : r ≤ t) :
    ((aval t r : ℝ) : ℂ) * ((aval t r : ℝ) : ℂ)
      = ((t : ℂ) - (r : ℂ)) * ((r : ℂ) + 1) := by
  rw [← Complex.ofReal_mul, aval_sq t r h]
  push_cast
  ring

/-! ### The angular-momentum commutation relations -/

lemma comm_xy (t : ℕ) : sxM t * syM t - syM t * sxM t = Complex.I • szM t := by
  apply Matrix.ext
  intro r c
  have hrb := r.isLt
  have hcb := c.isLt
  rw [Matrix.sub_apply, Matrix.smul_apply, smul_eq_mul]
  unfold sxM syM szM
  rw [triM_mul_expand, triM_mul_expand]
  unfold diagM
  dsimp only
  by_cases h0 : (r : ℕ) = (c : ℕ)
  · rw [if_pos h0]
    have e1 : ¬((r : ℕ) + 1 + 1 = (c : ℕ)) := by omega
    have e2 : (c : ℕ) + 1 = (r : ℕ) + 1 := by omega
    rw [if_neg e1, if_pos e2, if_neg e1, if_pos e2]
    rw [← h0]
    by_cases hr1 : 1 ≤ (r : ℕ)
    · have e3 : (r : ℕ) - 1 + 1 = (r : ℕ) := by omega
      rw [if_pos hr1, if_pos hr1, if_pos e3, if_pos e3]
      have hs2 := avalC_sq t ((r : ℕ) - 1) (by omega)
      rw [Nat.cast_sub hr1] at hs2
      by_cases hrt : (r : ℕ) + 1 < t + 1
      · rw [if_pos hrt, if_pos hrt]
        have hs1 := avalC_sq t (r : ℕ) (by omega)
        rw [mvalC]
        push_cast [Nat.cast_sub hr1]
        push_cast [Nat.cast_sub hr1] at hs2
        linear_combination (Complex.I / 2) * hs1 - (Complex.I / 2) * hs2
      · rw [if_neg hrt, if_neg hrt]
        have hrt' : (r : ℕ) = t := by omega
        rw [mvalC]
        push_cast [Nat.cast_sub hr1]
        push_cast [Nat.cast_sub hr1] at hs2
        have hteq : (t : ℂ) = ((r : ℕ) : ℂ) := by
          rw [hrt']
        rw [hteq] at hs2 ⊢
        linear_combination - (Complex.I / 2) * hs2
    · rw [if_neg hr1, if_neg hr1]
      have hr0 : (r : ℕ) = 0 := by omega
      by_cases hrt : (r : ℕ) + 1 < t + 1
      · rw [if_pos hrt, if_pos hrt]
        have hs1 := avalC_sq t (r : ℕ) (by omega)
        rw [mvalC, hr0]
        rw [hr0] at hs1
        push_cast at hs1 ⊢
        linear_combination (Complex.I / 2) * hs1
      · rw [if_neg hrt, if_neg hrt]
        have ht0 : t = 0 := by omega
        rw [mvalC, hr0, ht0]
        norm_num
  · rw [if_neg (fun h => h0 h)]
    by_cases h2 : (r : ℕ) + 1 + 1 = (c : ℕ)
    · -- two above the diagonal: the cross terms cancel
      have e2 : ¬((c : ℕ) + 1 = (r : ℕ) + 1) := by omega
      have e3 : ¬((r : ℕ) - 1 + 1 = (c : ℕ)) := by omega
      have e4 : ¬((c : ℕ) + 1 = (r : ℕ) - 1) := by omega
      rw [if_pos h2, if_neg e3, if_neg e4, if_pos h2, if_neg e3, if_neg e4]
      have hrt : (r : ℕ) + 1 < t + 1 := by omega
      rw [if_pos hrt, if_pos hrt]
      by_cases hr1 : 1 ≤ (r : ℕ)
      · rw [if_pos hr1, if_pos hr1]
        push_cast
        ring
      · rw [if_neg hr1, if_neg hr1]
        push_cast
        ring
    · by_cases h3 : (c : ℕ) + 2 = (r : ℕ)
      · -- two below the diagonal: the cross terms cancel
        have e1 : ¬((r : ℕ) + 1 + 1 = (c : ℕ)) := by omega
        have e2 : ¬((c : ℕ) + 1 = (r : ℕ) + 1) := by omega
        have e3 : ¬((r : ℕ) - 1 + 1 = (c : ℕ)) := by omega
        have e4 : (c : ℕ) + 1 = (r : ℕ) - 1 := by omega
        rw [if_neg e1, if_neg e2, if_neg e3, if_pos e4, if_neg e1, if_neg e2,
          if_neg e3, if_pos e4]
        have hr1 : 1 ≤ (r : ℕ) := by omega
        rw [if_pos hr1, if_pos hr1]
        by_cases hrt : (r : ℕ) + 1 < t + 1
        · rw [if_pos hrt, if_pos hrt]
          push_cast
          ring
        · rw [if_neg hrt, if_neg hrt]
          push_cast
          ring
      · -- every remaining off-diagonal position: all entries vanish
        have e1 : ¬((r : ℕ) + 1 + 1 = (c : ℕ)) := by omega
        have e2 : ¬((c : ℕ) + 1 = (r : ℕ) + 1) := by omega
        have e4 : ¬((c : ℕ) + 1 = (r : ℕ) - 1) := by omega
        by_cases hr1 : 1 ≤ (r : ℕ)
        · have e3 : ¬((r : ℕ) - 1 + 1 = (c : ℕ)) := by omega
          by_cases hrt : (r : ℕ) + 1 < t + 1 <;> simp [e1, e2, e3, e4, hrt, hr1, h0]
        · by_cases hrt : (r : ℕ) + 1 < t + 1 <;> simp [e1, e2, e4, hrt, hr1, h0]

lemma comm_yz (t : ℕ) : syM t * szM t - szM t * syM t = Complex.I • sxM t := by
  apply Matrix.ext
  intro r c
  rw [Matrix.sub_apply, Matrix.smul_apply, smul_eq_mul]
  unfold szM
  rw [mul_diagM_apply, diagM_mul_apply]
  unfold syM sxM triM
  dsimp only
  by_cases h1 : (r : ℕ) + 1 = (c : ℕ)
  · simp only [if_pos h1]
    have hm : ((mval t (c : ℕ) : ℝ) : ℂ) = ((mval t (r : ℕ) : ℝ) : ℂ) - 1 := by
      rw [mvalC, mvalC, ← h1]
      push_cast
      ring
    rw [hm]
    push_cast
    ring
  · simp only [if_neg h1]
    by_cases h2 : (c : ℕ) + 1 = (r : ℕ)
    · simp only [if_pos h2]
      have hm : ((mval t (c : ℕ) : ℝ) : ℂ) = ((mval t (r : ℕ) : ℝ) : ℂ) + 1 := by
        rw [mvalC, mvalC, ← h2]
        push_cast
        ring
      rw [hm]
      push_cast
      ring
    · simp only [if_neg h2]
      ring

lemma comm_zx (t : ℕ) : szM t * sxM t - sxM t * szM t = Complex.I • syM t := by
  apply Matrix.ext
  intro r c
  rw [Matrix.sub_apply, Matrix.smul_apply, smul_eq_mul]
  unfold szM
  rw [mul_diagM_apply, diagM_mul_apply]
  unfold syM sxM triM
  dsimp only
  by_cases h1 : (r : ℕ) + 1 = (c : ℕ)
  · simp only [if_pos h1]
    have hm : ((mval t (c : ℕ) : ℝ) : ℂ) = ((mval t (r : ℕ) : ℝ) : ℂ) - 1 := by
      rw [mvalC, mvalC, ← h1]
      push_cast
      ring
    rw [hm]
    push_cast
    linear_combination (((aval t (r : ℕ) : ℝ) : ℂ) / 2) * Complex.I_mul_I
  · simp only [if_neg h1]
    by_cases h2 : (c : ℕ) + 1 = (r : ℕ)
    · simp only [if_pos h2]
      have hm : ((mval t (c : ℕ) : ℝ) : ℂ) = ((mval t (r : ℕ) : ℝ) : ℂ) + 1 := by
        rw [mvalC, mvalC, ← h2]
        push_cast
        ring
      rw [hm]
      push_cast
      linear_combination (-(((aval t (c : ℕ) : ℝ) : ℂ)) / 2) * Complex.I_mul_I
    · simp only [if_neg h2]
      ring

/-! ## The `Np` model of `numpy` values

The Hamiltonian pipeline mixes Python scalars (the accumulators
`first_term = 0`, `HZ_n_host = 0`) with dense square complex matrices whose
dimension depends on run-time data (the neighbour list).  `Np` carries
both, plus `err` for the `ValueError` numpy raises when shapes are
incompatible.  Scalar/matrix addition broadcasts, as in numpy. -/

inductive Np where
  | err : Np
  | scl : ℂ → Np
  | mat : (n : ℕ) → Matrix (Fin n) (Fin n) ℂ → Np

namespace Np

/-- Dimension of a square-matrix value (0 for scalars and errors). -/
def dim : Np → ℕ
  | err => 0
  | scl _ => 0
  | mat n _ => n

/-- Entry accessor with out-of-range default `0`. -/
def entry : Np → ℕ → ℕ → ℂ
  | mat n M, i, j => if h : i < n ∧ j < n then M ⟨i, h.1⟩ ⟨j, h.2⟩ else 0
  | _, _, _ => 0

/-- `A + B` with numpy broadcast semantics for scalars; shape mismatch
yields `err`. -/
def add : Np → Np → Np
  | err, _ => err
  | _, err => err
  | scl a, scl b => scl (a + b)
  | scl a, mat n M => mat n (fun i j => a + M i j)
  | mat n M, scl a => mat n (fun i j => M i j + a)
  | mat n M, mat m N =>
      if h : m = n then
        mat n (fun i j => M i j + N (Fin.cast h.symm i) (Fin.cast h.symm j))
      else err

/-- `A - B`, same semantics. -/
def sub : Np → Np → Np
  | err, _ => err
  | _, err => err
  | scl a, scl b => scl (a - b)
  | scl a, mat n M => mat n (fun i j => a - M i j)
  | mat n M, scl a => mat n (fun i j => M i j - a)
  | mat n M, mat m N =>
      if h : m = n then
        mat n (fun i j => M i j - N (Fin.cast h.symm i) (Fin.cast h.symm j))
      else err

/-- Multiplication by a scalar. -/
def smul (c : ℂ) : Np → Np
  | err => err
  | scl a => scl (c * a)
  | mat n M => mat n (fun i j => c * M i j)

end Np

lemma kron_div_lt {m n k : ℕ} (h : k < m * n) : k / n < m :=
  Nat.div_lt_of_lt_mul (by rw [Nat.mul_comm]; exact h)

lemma kron_mod_lt {m n k : ℕ} (h : k < m * n) : k % n < n := by
  rcases Nat.eq_zero_or_pos n with h0 | h0
  · subst h0
    simp at h
  · exact Nat.mod_lt _ h0

/-- `np.kron` of two square matrices, with the flattened index convention
`K[i, j] = M[i / n, j / n] * N[i % n, j % n]` (`N` being `n × n`). -/
def kronF {m n : ℕ} (M : Matrix (Fin m) (Fin m) ℂ) (N : Matrix (Fin n) (Fin n) ℂ) :
    Matrix (Fin (m * n)) (Fin (m * n)) ℂ :=
  fun i j =>
    M ⟨(i : ℕ) / n, kron_div_lt i.isLt⟩ ⟨(j : ℕ) / n, kron_div_lt j.isLt⟩
      * N ⟨(i : ℕ) % n, kron_mod_lt i.isLt⟩ ⟨(j : ℕ) % n, kron_mod_lt j.isLt⟩

namespace Np

/-- `np.kron` at the `Np` level.  In the source `np.kron` is only ever
applied to two 2-D arrays, so every other combination is modelled as an
error. -/
def kron : Np → Np → Np
  | mat m M, mat n N => mat (m * n) (kronF M N)
  | _, _ => err

/-- `np.identity(n)`. -/
def idN (n : ℕ) : Np := mat n 1

/-- Hermiticity of an `Np` value (vacuous for `err`, realness for a
scalar). -/
def herm : Np → Prop
  | err => True
  | scl a => (starRingEnd ℂ) a = a
  | mat _ M => M.conjTranspose = M

end Np

/-! ## Physical constants (`SpinSystem` class attributes) -/

namespace SpinSystem

/-- Bohr magneton (J/T). -/
def mu_b : ℝ := 9.2740100 / 10 ^ 24

/-- Planck's constant (J s).  Named `h` in the source. -/
def hP : ℝ := 6.62607004 / 10 ^ 34

/-- Bohr magneton in GHz/T. -/
def beta_el : ℝ := mu_b / (hP * 10 ^ 9)

/-- Nuclear magneton (J/T). -/
def mu_n : ℝ := 5.0507837 / 10 ^ 27

/-- Nuclear magneton in GHz/T. -/
def beta_n : ℝ := mu_n / (hP * 10 ^ 9)

end SpinSystem

/-! ## Neighbour sites -/

/-- One neighbouring host nuclear spin.  `tH` is twice the spin quantum
number `spinH`; `element` is the species label. -/
structure Neighbour where
  disp_vector : Fin 3 → ℝ
  R : ℝ
  tH : ℕ
  g_n_host : ℝ
  element : String

/-- `int(2 * spinH + 1)`. -/
abbrev Neighbour.multH (nb : Neighbour) : ℕ := nb.tH + 1

/-- The operator triple `(Hx, Hy, Hz)` of the neighbour, as a vector. -/
def Neighbour.Hvec (nb : Neighbour) :
    Fin 3 → Matrix (Fin nb.multH) (Fin nb.multH) ℂ :=
  ![sxM nb.tH, syM nb.tH, szM nb.tH]

/-- `Neighbour.__init__`: the displacement (given in Angstrom) is scaled by
`10 ** -10` into meters and `R` is its Euclidean norm. -/
def Neighbour.make (disp_raw : Fin 3 → ℝ) (tH : ℕ) (g : ℝ) (elem : String) :
    Neighbour :=
  { disp_vector := fun i => (1 / 10 ^ 10 : ℝ) * disp_raw i
    R := Real.sqrt (∑ i : Fin 3, ((1 / 10 ^ 10 : ℝ) * disp_raw i) ^ 2)
    tH := tH
    g_n_host := g
    element := elem }

/-! ## Vector/tensor contraction helpers

The source stores the operator triples both stacked (`3 × d × d`) and
flattened (`3 × d²`, the `v3` views) so that `3 × 3` tensors and
`3`-vectors can be contracted against them by matrix product; reshaping
back recovers the stacked components.  Those contractions are exactly the
linear combinations below. -/

/-- The electron/nuclear operator triple of twice-spin `t`. -/
def Svec (t : ℕ) : Fin 3 → Matrix (Fin (t + 1)) (Fin (t + 1)) ℂ :=
  ![sxM t, syM t, szM t]

/-- `(A @ Tv3).reshape((3, d, d))`: component `i` is `∑ j, A[i, j] • T j`. -/
def applyA {d : ℕ} (A : Matrix (Fin 3) (Fin 3) ℝ)
    (T : Fin 3 → Matrix (Fin d) (Fin d) ℂ) : Fin 3 → Matrix (Fin d) (Fin d) ℂ :=
  fun i => ∑ j, ((A i j : ℝ) : ℂ) • T j

/-- `v.dot(Tv3).reshape((d, d))`: the contraction `∑ i, v i • T i`. -/
def dotVec {d : ℕ} (v : Fin 3 → ℝ)
    (T : Fin 3 → Matrix (Fin d) (Fin d) ℂ) : Matrix (Fin d) (Fin d) ℂ :=
  ∑ i, ((v i : ℝ) : ℂ) • T i

/-- `v @ A` for a row `3`-vector and a `3 × 3` matrix. -/
def rowVecMul (v : Fin 3 → ℝ) (A : Matrix (Fin 3) (Fin 3) ℝ) : Fin 3 → ℝ :=
  fun j => ∑ i, v i * A i j

/-! ## Tensor-product expansion over the neighbour list -/

/-- `for neigh in neighbours: M = np.kron(M, np.identity(neigh.multH))`. -/
def expandNb (M : Np) (l : List Neighbour) : Np :=
  l.foldl (fun acc nb => Np.kron acc (Np.idN nb.multH)) M

/-- Fold over the enumerated neighbour list placing the matrix `f nb` at
position `nidx` and identities everywhere else (the two-body embedding
pattern of `initialize_SHF` / `update_zeeman_ham`). -/
def placeAt (start : Np) (l : List Neighbour) (nidx : ℕ)
    (f : (nb : Neighbour) → Matrix (Fin nb.multH) (Fin nb.multH) ℂ) : Np :=
  l.enum.foldl
    (fun acc p =>
      if p.1 = nidx then Np.kron acc (Np.mat p.2.multH (f p.2))
      else Np.kron acc (Np.idN p.2.multH))
    start

/-! ## The spin system state -/

/-- The mutable state of a `SpinSystem` object.  `multHattr` models the
attribute `self.multH`, which `__init__` never assigns (reading it raises
`AttributeError`); `none` is the unassigned state. -/
structure SpinSystem where
  tS : ℕ
  tI : ℕ
  g_gs : Matrix (Fin 3) (Fin 3) ℝ
  g_es : Matrix (Fin 3) (Fin 3) ℝ
  A_gs : Matrix (Fin 3) (Fin 3) ℝ
  A_es : Matrix (Fin 3) (Fin 3) ℝ
  g_n_rei : ℝ
  neighbours : List Neighbour
  HHF_gs : Np
  HHF_es : Np
  H_SHF_gs : Np
  H_SHF_es : Np
  H_gs : Np
  H_es : Np
  E_gs : List ℝ
  E_es : List ℝ
  eigvec_gs : Np
  eigvec_es : Np
  multHattr : Option ℕ

namespace SpinSystem

/-- `int(2 * spinS + 1)`. -/
abbrev multS (s : SpinSystem) : ℕ := s.tS + 1

/-- `int(2 * spinI + 1)`. -/
abbrev multI (s : SpinSystem) : ℕ := s.tI + 1

/-- The composite dimension `D = (2S+1) * (2I+1) * ∏ (2s_H + 1)` of the
spec's data model. -/
def dimTotal (s : SpinSystem) : ℕ :=
  s.multS * s.multI * (s.neighbours.map Neighbour.multH).prod

/-! ### `initialize_HHF` -/

/-- Ground manifold core: `sum(S[i] @ (A_gs @ Sv3)[i] for i in range(3))`
— the electron operator is contracted with itself; no ion-nucleus factor
appears. -/
def HHF_gs_core (tS : ℕ) (A : Matrix (Fin 3) (Fin 3) ℝ) :
    Matrix (Fin (tS + 1)) (Fin (tS + 1)) ℂ :=
  ∑ i, Svec tS i * applyA A (Svec tS) i

/-- Excited manifold core:
`sum(np.kron(I[i], (A_es @ Sv3)[i]) for i in range(3))` — note the
ion-nucleus operator is the FIRST `np.kron` factor. -/
def HHF_es_core (tS tI : ℕ) (A : Matrix (Fin 3) (Fin 3) ℝ) :
    Matrix (Fin ((tI + 1) * (tS + 1))) (Fin ((tI + 1) * (tS + 1))) ℂ :=
  ∑ i, kronF (Svec tI i) (applyA A (Svec tS) i)

/-- `initialize_HHF`, ground part: the core expanded into the host nucleus
spaces only. -/
def initialize_HHF_gs (tS : ℕ) (A : Matrix (Fin 3) (Fin 3) ℝ)
    (l : List Neighbour) : Np :=
  expandNb (Np.mat (tS + 1) (HHF_gs_core tS A)) l

/-- `initialize_HHF`, excited part. -/
def initialize_HHF_es (tS tI : ℕ) (A : Matrix (Fin 3) (Fin 3) ℝ)
    (l : List Neighbour) : Np :=
  expandNb (Np.mat ((tI + 1) * (tS + 1)) (HHF_es_core tS tI A)) l

/-! ### `initialize_SHF` -/

/-- `mu_REI = -(mu_b * g @ Sv3)`, componentwise. -/
def mu_REI (tS : ℕ) (g : Matrix (Fin 3) (Fin 3) ℝ) :
    Fin 3 → Matrix (Fin (tS + 1)) (Fin (tS + 1)) ℂ :=
  fun i => ((-mu_b : ℝ) : ℂ) • applyA g (Svec tS) i

/-- `mu_host = mu_n * neigh.g_n_host * neigh.H`, componentwise. -/
def mu_host (nb : Neighbour) :
    Fin 3 → Matrix (Fin nb.multH) (Fin nb.multH) ℂ :=
  fun i => ((mu_n * nb.g_n_host : ℝ) : ℂ) • Neighbour.Hvec nb i

/-- First (isotropic) superhyperfine accumulator:
for each neighbour, for each component `i`, embed
`kron(kron(mu_REI[i], id_I), ..., mu_host[i] at that neighbour, ...)` and
accumulate divided by `R³`.  The accumulator starts from the Python
integer `0`. -/
def shf_first (tI : ℕ) {tS : ℕ}
    (mu : Fin 3 → Matrix (Fin (tS + 1)) (Fin (tS + 1)) ℂ)
    (l : List Neighbour) : Np :=
  l.enum.foldl
    (fun acc p =>
      (List.finRange 3).foldl
        (fun acc2 i =>
          Np.add acc2 (Np.smul ((1 / p.2.R ^ 3 : ℝ) : ℂ)
            (placeAt
              (Np.mat ((tS + 1) * (tI + 1))
                (kronF (mu i) (1 : Matrix (Fin (tI + 1)) (Fin (tI + 1)) ℂ)))
              l p.1 (fun nb => mu_host nb i))))
        acc)
    (Np.scl 0)

/-- Second (anisotropic) superhyperfine accumulator:
`(3 / R⁵) * kron(kron(disp·mu_REI, id_I), ..., disp·mu_host, ...)`. -/
def shf_second (tI : ℕ) {tS : ℕ}
    (mu : Fin 3 → Matrix (Fin (tS + 1)) (Fin (tS + 1)) ℂ)
    (l : List Neighbour) : Np :=
  l.enum.foldl
    (fun acc p =>
      Np.add acc (Np.smul ((3 / p.2.R ^ 5 : ℝ) : ℂ)
        (placeAt
          (Np.mat ((tS + 1) * (tI + 1))
            (kronF (dotVec p.2.disp_vector mu)
              (1 : Matrix (Fin (tI + 1)) (Fin (tI + 1)) ℂ)))
          l p.1 (fun nb => dotVec p.2.disp_vector (mu_host nb)))))
    (Np.scl 0)

/-- `initialize_SHF` for one manifold:
`10**-7 * (first_term - second_term) / (h * 10**9)`. -/
def initialize_SHF (tS tI : ℕ) (g : Matrix (Fin 3) (Fin 3) ℝ)
    (l : List Neighbour) : Np :=
  Np.smul ((1 / (hP * 10 ^ 9) : ℝ) : ℂ)
    (Np.smul ((1 / 10 ^ 7 : ℝ) : ℂ)
      (Np.sub (shf_first tI (mu_REI tS g) l) (shf_second tI (mu_REI tS g) l)))

/-! ### `reset_ham` and the Zeeman update -/

/-- `reset_ham`: the working Hamiltonians become the cached field-independent
hyperfine + superhyperfine sums (the deep copy is irrelevant in a pure
model). -/
def reset_ham (s : SpinSystem) : SpinSystem :=
  { s with
    H_gs := Np.add s.HHF_gs s.H_SHF_gs
    H_es := Np.add s.HHF_es s.H_SHF_es }

/-- The Cartesian field vector `B * [sinθcosφ, sinθsinφ, cosθ]`. -/
def B_cart (B theta phi : ℝ) : Fin 3 → ℝ :=
  fun i =>
    B * ![Real.sin theta * Real.cos phi, Real.sin theta * Real.sin phi,
          Real.cos theta] i

/-- Electronic Zeeman term for one manifold:
`(beta_el * B_vec @ g @ Sv3)` expanded into the ion-nucleus and neighbour
spaces. -/
def HZ_el (tS tI : ℕ) (g : Matrix (Fin 3) (Fin 3) ℝ) (l : List Neighbour)
    (B theta phi : ℝ) : Np :=
  expandNb
    (Np.kron
      (Np.mat (tS + 1)
        (((beta_el : ℝ) : ℂ) • dotVec (rowVecMul (B_cart B theta phi) g) (Svec tS)))
      (Np.idN (tI + 1)))
    l

/-- Ion-nuclear Zeeman term (manifold-independent):
`(beta_n * g_n_rei * B_vec @ Iv3)` expanded with identity on the electron
space and on every neighbour space. -/
def HZ_n_rei (tS tI : ℕ) (g_n_rei : ℝ) (l : List Neighbour)
    (B theta phi : ℝ) : Np :=
  expandNb
    (Np.kron (Np.idN (tS + 1))
      (Np.mat (tI + 1)
        (((beta_n * g_n_rei : ℝ) : ℂ) • dotVec (B_cart B theta phi) (Svec tI))))
    l

/-- Host-nuclear Zeeman sum: for each neighbour, its own Zeeman term placed
at its slot, identities elsewhere; accumulated from the Python integer
`0`. -/
def HZ_n_host (tS tI : ℕ) (l : List Neighbour) (B theta phi : ℝ) : Np :=
  l.enum.foldl
    (fun acc p =>
      Np.add acc
        (placeAt (Np.kron (Np.idN (tS + 1)) (Np.idN (tI + 1))) l p.1
          (fun nb =>
            ((beta_n * p.2.g_n_host : ℝ) : ℂ) •
              dotVec (B_cart B theta phi) (Neighbour.Hvec nb))))
    (Np.scl 0)

/-- `update_zeeman_ham(B, B_theta, B_phi)`: reset to the cached baseline,
then add `HZ_el - HZ_n_rei - HZ_n_host` per manifold. -/
def update_zeeman_ham (s : SpinSystem) (B theta phi : ℝ) : SpinSystem :=
  let s' := reset_ham s
  { s' with
    H_gs := Np.add s'.H_gs
      (Np.sub (Np.sub (HZ_el s.tS s.tI s.g_gs s.neighbours B theta phi)
          (HZ_n_rei s.tS s.tI s.g_n_rei s.neighbours B theta phi))
        (HZ_n_host s.tS s.tI s.neighbours B theta phi))
    H_es := Np.add s'.H_es
      (Np.sub (Np.sub (HZ_el s.tS s.tI s.g_es s.neighbours B theta phi)
          (HZ_n_rei s.tS s.tI s.g_n_rei s.neighbours B theta phi))
        (HZ_n_host s.tS s.tI s.neighbours B theta phi)) }

/-! ### Diagonalisation (`calc_energies`)

`np.linalg.eig` is an external LAPACK routine; it is abstracted as a
parameter `eig : Np → List ℝ × Np` returning the raw eigenvalue list and
the raw eigenvector matrix (eigenvalues of the Hermitian Hamiltonians are
real; the tiny imaginary round-off of the float computation is zero in
exact arithmetic).  `sorted(...)` and the `argsort` column reordering are
modelled concretely below. -/

/-- Insertion step of an ascending stable sort (models Python `sorted`). -/
def insertR (x : ℝ) : List ℝ → List ℝ
  | [] => [x]
  | y :: ys => if x ≤ y then x :: y :: ys else y :: insertR x ys

/-- Ascending sort of a real list. -/
def sortR (l : List ℝ) : List ℝ := l.foldr insertR []

/-- Insertion step for `(value, index)` pairs, ordered by value. -/
def insertPair (x : ℝ × ℕ) : List (ℝ × ℕ) → List (ℝ × ℕ)
  | [] => [x]
  | y :: ys => if x.1 ≤ y.1 then x :: y :: ys else y :: insertPair x ys

/-- `np.argsort`: the indices that sort the list ascending. -/
def argsortR (l : List ℝ) : List ℕ :=
  ((l.zip (List.range l.length)).foldr insertPair []).map (fun p => p.2)

/-- `A[:, p]`: column reordering of a matrix value (identity on scalars
and errors; out-of-range indices default harmlessly, they are never hit
for a genuine argsort permutation). -/
def colPerm (A : Np) (p : List ℕ) : Np :=
  match A with
  | Np.mat n M =>
      Np.mat n (fun i j =>
        M i (if h : p.getD (j : ℕ) 0 < n then ⟨p.getD (j : ℕ) 0, h⟩ else j))
  | x => x

/-- `calc_energies`: store the sorted eigenvalues and the matching
column-reordered eigenvectors for both manifolds. -/
def calc_energies (eig : Np → List ℝ × Np) (s : SpinSystem) : SpinSystem :=
  { s with
    E_gs := sortR (eig s.H_gs).1
    eigvec_gs := colPerm (eig s.H_gs).2 (argsortR (eig s.H_gs).1)
    E_es := sortR (eig s.H_es).1
    eigvec_es := colPerm (eig s.H_es).2 (argsortR (eig s.H_es).1) }

/-- `update_B`: recompute the Zeeman part, then the eigenstructure. -/
def update_B (eig : Np → List ℝ × Np) (s : SpinSystem) (B theta phi : ℝ) :
    SpinSystem :=
  calc_energies eig (update_zeeman_ham s B theta phi)

/-- `SpinSystem.__init__`: build the neighbour objects, the cached
field-independent Hamiltonian pieces, reset the working Hamiltonians, and
diagonalise. -/
def init (eig : Np → List ℝ × Np) (tS tI : ℕ)
    (g_gs g_es A_gs A_es : Matrix (Fin 3) (Fin 3) ℝ) (g_n_rei : ℝ)
    (neighbours_input : List ((Fin 3 → ℝ) × ℕ × ℝ × String)) : SpinSystem :=
  let neighbours := neighbours_input.map
    (fun q => Neighbour.make q.1 q.2.1 q.2.2.1 q.2.2.2)
  let s0 : SpinSystem :=
    { tS := tS, tI := tI, g_gs := g_gs, g_es := g_es, A_gs := A_gs
      A_es := A_es, g_n_rei := g_n_rei, neighbours := neighbours
      HHF_gs := initialize_HHF_gs tS A_gs neighbours
      HHF_es := initialize_HHF_es tS tI A_es neighbours
      H_SHF_gs := initialize_SHF tS tI g_gs neighbours
      H_SHF_es := initialize_SHF tS tI g_es neighbours
      H_gs := Np.err, H_es := Np.err
      E_gs := [], E_es := []
      eigvec_gs := Np.err, eigvec_es := Np.err
      multHattr := none }
  calc_energies eig (reset_ham s0)

/-! ### Query methods

Each query takes the three optional field arguments `B, B_theta, B_phi`
and performs the update only when all three are provided
(`if B is not None and B_theta is not None and B_phi is not None`). -/

/-- The optional-field-update guard shared by every query method. -/
def maybe_update (eig : Np → List ℝ × Np) (s : SpinSystem)
    (B Btheta Bphi : Option ℝ) : SpinSystem :=
  match B, Btheta, Bphi with
  | some b, some th, some ph => update_B eig s b th ph
  | _, _, _ => s

/-- `energies(state, B, B_theta, B_phi)`: optionally update, then return
the stored energy list of the selected manifold, or raise (the bare
`raise Exception`, the spec's `InvalidStateError`) for any other
selector.  The pair carries the post-call object state. -/
def energies (eig : Np → List ℝ × Np) (s : SpinSystem) (state : String)
    (B Btheta Bphi : Option ℝ) : SpinSystem × Except Unit (List ℝ) :=
  let s' := maybe_update eig s B Btheta Bphi
  (s',
    if state = "gs" then Except.ok s'.E_gs
    else if state = "es" then Except.ok s'.E_es
    else Except.error ())

/-- The two transition lists built by `spin_transitions` from the stored
spectra.  Note the source's ground-manifold outer loop runs over
`range(len(self.E_es))` while reading `self.E_gs`. -/
def spin_transitions_lists (Egs Ees : List ℝ) :
    List (ℝ × (ℕ × ℕ × ℕ)) × List (ℝ × (ℕ × ℕ × ℕ)) :=
  ((List.range Ees.length).flatMap (fun i =>
      (List.range' (i + 1) (Egs.length - (i + 1))).map (fun j =>
        (Egs.getD j 0 - Egs.getD i 0, (1, 1, 1)))),
   (List.range Ees.length).flatMap (fun i =>
      (List.range' (i + 1) (Ees.length - (i + 1))).map (fun j =>
        (Ees.getD j 0 - Ees.getD i 0, (1, 1, 1)))))

/-- `spin_transitions(B, B_theta, B_phi)`. -/
def spin_transitions (eig : Np → List ℝ × Np) (s : SpinSystem)
    (B Btheta Bphi : Option ℝ) :
    SpinSystem × (List (ℝ × (ℕ × ℕ × ℕ)) × List (ℝ × (ℕ × ℕ × ℕ))) :=
  let s' := maybe_update eig s B Btheta Bphi
  (s', spin_transitions_lists s'.E_gs s'.E_es)

/-- A stored eigenvector column `M[:, j]` (index defaulted harmlessly when
out of range, and a zero-length vector for non-matrix values). -/
def col (A : Np) (j : ℕ) : (n : ℕ) × (Fin n → ℂ) :=
  match A with
  | Np.mat n M => ⟨n, fun i => M i (if h : j < n then ⟨j, h⟩ else i)⟩
  | _ => ⟨0, fun _ => 0⟩

/-- `x.conjugate() @ A @ y` for vectors against an `Np` matrix; `none`
models the shape `ValueError` when the dimensions disagree. -/
def quadForm (x : (n : ℕ) × (Fin n → ℂ)) (A : Np)
    (y : (m : ℕ) × (Fin m → ℂ)) : Option ℂ :=
  match A with
  | Np.mat n M =>
      if hx : x.1 = n then
        if hy : y.1 = n then
          some (∑ i, ∑ j,
            (starRingEnd ℂ) (x.2 (Fin.cast hx.symm i)) * M i j *
              y.2 (Fin.cast hy.symm j))
        else none
      else none
  | _ => none

/-- The three polarisation operators `2 * kron(s_pol, id_I)` expanded into
every host space (used by `transition_strength`). -/
def bigSfull (s : SpinSystem) (i : Fin 3) : Np :=
  expandNb
    (Np.smul 2 (Np.kron (Np.mat (s.tS + 1) (Svec s.tS i)) (Np.idN (s.tI + 1))))
    s.neighbours

/-- `transition_strength(initial, final)`: squared moduli of the three
polarisation matrix elements (`none` models the shape `ValueError` on
mismatched eigenvector length). -/
def transition_strength (s : SpinSystem)
    (initial final : (n : ℕ) × (Fin n → ℂ)) : Option (ℝ × ℝ × ℝ) := do
  let fx ← quadForm final (bigSfull s 0) initial
  let fy ← quadForm final (bigSfull s 1) initial
  let fz ← quadForm final (bigSfull s 2) initial
  return (Complex.abs fx ^ 2, Complex.abs fy ^ 2, Complex.abs fz ^ 2)

/-- `optical_transitions(B, B_theta, B_phi, compute_strengths)`: every
(ground, excited) index pair with energy difference, optional strength
triple, and the index pair.  A `none` strength covers both
`compute_strengths=False` and the (unreachable in the shipped script)
shape failure inside `transition_strength`. -/
def optical_transitions (eig : Np → List ℝ × Np) (s : SpinSystem)
    (B Btheta Bphi : Option ℝ) (compute_strengths : Bool) :
    SpinSystem × List (ℝ × Option (ℝ × ℝ × ℝ) × (ℕ × ℕ)) :=
  let s' := maybe_update eig s B Btheta Bphi
  (s',
    (List.range s'.E_gs.length).flatMap (fun ig =>
      (List.range s'.E_es.length).map (fun ie =>
        (s'.E_es.getD ie 0 - s'.E_gs.getD ig 0,
         if compute_strengths then
           transition_strength s' (col s'.eigvec_gs ig) (col s'.eigvec_es ie)
         else none,
         (ig, ie)))))

/-- `superhyperfine_levels(state, B, B_theta, B_phi)`: four further
`energies` calls (each of which re-applies the optional update, as in the
source), then the two doublets relative to their means, scaled to kHz.
Out-of-range list indexing is modelled by the default `0`. -/
def superhyperfine_levels (eig : Np → List ℝ × Np) (s : SpinSystem)
    (state : String) (B Btheta Bphi : Option ℝ) :
    SpinSystem × Except Unit (ℝ × ℝ × ℝ × ℝ × ℝ × ℝ) :=
  let s0 := maybe_update eig s B Btheta Bphi
  let r1 := energies eig s0 state B Btheta Bphi
  match r1.2 with
  | Except.error e => (r1.1, Except.error e)
  | Except.ok l1 =>
    let r2 := energies eig r1.1 state B Btheta Bphi
    match r2.2 with
    | Except.error e => (r2.1, Except.error e)
    | Except.ok l2 =>
      let r3 := energies eig r2.1 state B Btheta Bphi
      match r3.2 with
      | Except.error e => (r3.1, Except.error e)
      | Except.ok l3 =>
        let r4 := energies eig r3.1 state B Btheta Bphi
        match r4.2 with
        | Except.error e => (r4.1, Except.error e)
        | Except.ok l4 =>
          let low := l1.getD 0 0
          let up := l2.getD 1 0
          let avg := (low + up) / 2
          let low2 := l3.getD (l3.length - 2) 0
          let up2 := l4.getD (l4.length - 1) 0
          let avg2 := (low2 + up2) / 2
          (r4.1,
            Except.ok ((low - avg) * 10 ^ 6, (up - avg) * 10 ^ 6,
              (up - low) * 10 ^ 6, (low2 - avg2) * 10 ^ 6,
              (up2 - avg2) * 10 ^ 6, (up2 - low2) * 10 ^ 6))

/-- `branching_contrast(B, B_theta, B_phi, stated_levels)`.  The very
first statement of the body reads `self.multH`, an attribute `__init__`
never assigns, so on any system built by `__init__` the call raises
`AttributeError` (modelled by a `none` result); the optional update has
already happened by then.  Were the attribute present, the operator would
be `2 * kron(kron(sx, id_I), id_multH)` — an embedding that includes one
host-sized identity factor. -/
def branching_contrast (eig : Np → List ℝ × Np) (s : SpinSystem)
    (B Btheta Bphi : Option ℝ) (stated_levels : Option (ℕ × ℕ × ℕ)) :
    SpinSystem ×
      Option (ℝ × ℝ × ℝ × ℝ × ((n : ℕ) × (Fin n → ℂ)) ×
        ((n : ℕ) × (Fin n → ℂ)) × ((n : ℕ) × (Fin n → ℂ))) :=
  let s' := maybe_update eig s B Btheta Bphi
  match s'.multHattr with
  | none => (s', none)
  | some mH =>
    let bigSx : Np :=
      Np.smul 2 (Np.kron
        (Np.kron (Np.mat (s'.tS + 1) (sxM s'.tS)) (Np.idN (s'.tI + 1)))
        (Np.idN mH))
    let ijk := stated_levels.getD (0, 1, 0)
    let gs_lower := col s'.eigvec_gs ijk.1
    let gs_upper := col s'.eigvec_gs ijk.2.1
    let es_lower := col s'.eigvec_es ijk.2.2
    match quadForm gs_upper bigSx es_lower, quadForm gs_lower bigSx es_lower with
    | some q23, some q13 =>
      let r23 := Complex.abs q23 ^ 2
      let r13 := Complex.abs q13 ^ 2
      let RS := r23 / r13
      (s', some (r23, r13, RS, 4 * RS / (1 + RS) ^ 2, gs_lower, gs_upper, es_lower))
    | _, _ => (s', none)

end SpinSystem

/-! ## Structural lemmas about `Np` values -/

namespace Np

/-- `A` is a square matrix value of dimension `n`. -/
def isMat (A : Np) (n : ℕ) : Prop := ∃ M, A = Np.mat n M

lemma isMat_mat (n : ℕ) (M : Matrix (Fin n) (Fin n) ℂ) : (Np.mat n M).isMat n :=
  ⟨M, rfl⟩

lemma isMat_idN (n : ℕ) : (Np.idN n).isMat n := ⟨1, rfl⟩

lemma isMat_unique {A : Np} {n m : ℕ} (hn : A.isMat n) (hm : A.isMat m) :
    n = m := by
  obtain ⟨M, rfl⟩ := hn
  obtain ⟨N, hN⟩ := hm
  injection hN with h1 _

lemma isMat_congr {A : Np} {n m : ℕ} (h : A.isMat n) (e : n = m) : A.isMat m :=
  e ▸ h

lemma isMat_smul {A : Np} {n : ℕ} (c : ℂ) (h : A.isMat n) :
    (Np.smul c A).isMat n := by
  obtain ⟨M, rfl⟩ := h
  exact ⟨_, rfl⟩

lemma isMat_add {A B : Np} {n : ℕ} (hA : A.isMat n) (hB : B.isMat n) :
    (Np.add A B).isMat n := by
  obtain ⟨M, rfl⟩ := hA
  obtain ⟨N, rfl⟩ := hB
  exact ⟨_, by rw [add, dif_pos rfl]⟩

lemma isMat_add_scl_left {B : Np} {n : ℕ} (c : ℂ) (hB : B.isMat n) :
    (Np.add (Np.scl c) B).isMat n := by
  obtain ⟨N, rfl⟩ := hB
  exact ⟨_, rfl⟩

lemma isMat_add_scl_right {A : Np} {n : ℕ} (c : ℂ) (hA : A.isMat n) :
    (Np.add A (Np.scl c)).isMat n := by
  obtain ⟨M, rfl⟩ := hA
  exact ⟨_, rfl⟩

lemma isMat_sub {A B : Np} {n : ℕ} (hA : A.isMat n) (hB : B.isMat n) :
    (Np.sub A B).isMat n := by
  obtain ⟨M, rfl⟩ := hA
  obtain ⟨N, rfl⟩ := hB
  exact ⟨_, by rw [sub, dif_pos rfl]⟩

lemma isMat_sub_scl_right {A : Np} {n : ℕ} (c : ℂ) (hA : A.isMat n) :
    (Np.sub A (Np.scl c)).isMat n := by
  obtain ⟨M, rfl⟩ := hA
  exact ⟨_, rfl⟩

lemma isMat_kron {A B : Np} {n m : ℕ} (hA : A.isMat n) (hB : B.isMat m) :
    (Np.kron A B).isMat (n * m) := by
  obtain ⟨M, rfl⟩ := hA
  obtain ⟨N, rfl⟩ := hB
  exact ⟨_, rfl⟩

end Np

/-- `expandNb` multiplies the dimension by the product of the neighbour
multiplicities. -/
lemma isMat_expandNb (l : List Neighbour) :
    ∀ {A : Np} {n : ℕ}, A.isMat n →
      (expandNb A l).isMat (n * (l.map Neighbour.multH).prod) := by
  induction l with
  | nil =>
      intro A n h
      exact Np.isMat_congr h (by simp)
  | cons nb l' ih =>
      intro A n h
      have step : expandNb A (nb :: l')
          = expandNb (Np.kron A (Np.idN nb.multH)) l' := rfl
      rw [step]
      refine Np.isMat_congr (ih (Np.isMat_kron h (Np.isMat_idN _))) ?_
      simp [mul_assoc]

/-- `placeAt` likewise multiplies the dimension by the product of the
multiplicities of the list folded over. -/
lemma isMat_placeAt_from (l : List Neighbour) (nidx : ℕ)
    (f : (nb : Neighbour) → Matrix (Fin nb.multH) (Fin nb.multH) ℂ) :
    ∀ (k : ℕ) {A : Np} {n : ℕ}, A.isMat n →
      ((List.enumFrom k l).foldl
        (fun acc p =>
          if p.1 = nidx then Np.kron acc (Np.mat p.2.multH (f p.2))
          else Np.kron acc (Np.idN p.2.multH)) A).isMat
        (n * (l.map Neighbour.multH).prod) := by
  induction l with
  | nil =>
      intro k A n h
      exact Np.isMat_congr h (by simp)
  | cons nb l' ih =>
      intro k A n h
      have step :
          (List.enumFrom k (nb :: l')).foldl
              (fun acc p =>
                if p.1 = nidx then Np.kron acc (Np.mat p.2.multH (f p.2))
                else Np.kron acc (Np.idN p.2.multH)) A
            = (List.enumFrom (k + 1) l').foldl
                (fun acc p =>
                  if p.1 = nidx then Np.kron acc (Np.mat p.2.multH (f p.2))
                  else Np.kron acc (Np.idN p.2.multH))
                (if k = nidx then Np.kron A (Np.mat nb.multH (f nb))
                 else Np.kron A (Np.idN nb.multH)) := rfl
      rw [step]
      have hstep : (if k = nidx then Np.kron A (Np.mat nb.multH (f nb))
          else Np.kron A (Np.idN nb.multH)).isMat (n * nb.multH) := by
        by_cases hk : k = nidx
        · rw [if_pos hk]
          exact Np.isMat_kron h (Np.isMat_mat _ _)
        · rw [if_neg hk]
          exact Np.isMat_kron h (Np.isMat_idN _)
      refine Np.isMat_congr (ih (k + 1) hstep) ?_
      simp [mul_assoc]

lemma isMat_placeAt {A : Np} {n : ℕ} (l : List Neighbour) (nidx : ℕ)
    (f : (nb : Neighbour) → Matrix (Fin nb.multH) (Fin nb.multH) ℂ)
    (h : A.isMat n) :
    (placeAt A l nidx f).isMat (n * (l.map Neighbour.multH).prod) :=
  isMat_placeAt_from l nidx f 0 h

/-- A fold accumulating `Np.add acc (g a)` from the Python integer `0`
either stays the scalar `0` (empty list) or is a matrix of the common
dimension of the summands. -/
lemma foldl_add_shape {α : Type} (g : α → Np) (D : ℕ)
    (hg : ∀ a, (g a).isMat D) :
    ∀ (l : List α) (acc : Np), (acc = Np.scl 0 ∨ acc.isMat D) →
      (l.foldl (fun acc a => Np.add acc (g a)) acc = Np.scl 0 ∨
        (l.foldl (fun acc a => Np.add acc (g a)) acc).isMat D) := by
  intro l
  induction l with
  | nil => intro acc h; exact h
  | cons a l' ih =>
      intro acc h
      rw [List.foldl_cons]
      apply ih
      right
      rcases h with h | h
      · subst h
        exact Np.isMat_add_scl_left _ (hg a)
      · exact Np.isMat_add h (hg a)

namespace SpinSystem

/-! ### Dimensions of the assembled Hamiltonian pieces -/

lemma isMat_initialize_HHF_gs (tS : ℕ) (A : Matrix (Fin 3) (Fin 3) ℝ)
    (l : List Neighbour) :
    (initialize_HHF_gs tS A l).isMat ((tS + 1) * (l.map Neighbour.multH).prod) :=
  isMat_expandNb l (Np.isMat_mat _ _)

lemma isMat_initialize_HHF_es (tS tI : ℕ) (A : Matrix (Fin 3) (Fin 3) ℝ)
    (l : List Neighbour) :
    (initialize_HHF_es tS tI A l).isMat
      ((tS + 1) * (tI + 1) * (l.map Neighbour.multH).prod) :=
  Np.isMat_congr (isMat_expandNb l (Np.isMat_mat _ _)) (by ring)

lemma shape_shf_first (tS tI : ℕ)
    (mu : Fin 3 → Matrix (Fin (tS + 1)) (Fin (tS + 1)) ℂ) (l : List Neighbour) :
    shf_first tI mu l = Np.scl 0 ∨
      (shf_first tI mu l).isMat ((tS + 1) * (tI + 1) * (l.map Neighbour.multH).prod) := by
  unfold shf_first
  set D := (tS + 1) * (tI + 1) * (l.map Neighbour.multH).prod with hD
  have main : ∀ (ps : List (ℕ × Neighbour)) (acc : Np),
      (acc = Np.scl 0 ∨ acc.isMat D) →
      ps.foldl
          (fun acc p =>
            (List.finRange 3).foldl
              (fun acc2 i =>
                Np.add acc2 (Np.smul ((1 / p.2.R ^ 3 : ℝ) : ℂ)
                  (placeAt
                    (Np.mat ((tS + 1) * (tI + 1))
                      (kronF (mu i) (1 : Matrix (Fin (tI + 1)) (Fin (tI + 1)) ℂ)))
                    l p.1 (fun nb => mu_host nb i))))
              acc) acc = Np.scl 0 ∨
        (ps.foldl
          (fun acc p =>
            (List.finRange 3).foldl
              (fun acc2 i =>
                Np.add acc2 (Np.smul ((1 / p.2.R ^ 3 : ℝ) : ℂ)
                  (placeAt
                    (Np.mat ((tS + 1) * (tI + 1))
                      (kronF (mu i) (1 : Matrix (Fin (tI + 1)) (Fin (tI + 1)) ℂ)))
                    l p.1 (fun nb => mu_host nb i))))
              acc) acc).isMat D := by
    intro ps
    induction ps with
    | nil => intro acc h; exact h
    | cons p ps' ih =>
        intro acc h
        rw [List.foldl_cons]
        apply ih
        apply foldl_add_shape
        · intro i
          apply Np.isMat_smul
          exact isMat_placeAt l p.1 _ (Np.isMat_mat _ _)
        · exact h
  exact main l.enum (Np.scl 0) (Or.inl rfl)

lemma shape_shf_second (tS tI : ℕ)
    (mu : Fin 3 → Matrix (Fin (tS + 1)) (Fin (tS + 1)) ℂ) (l : List Neighbour) :
    shf_second tI mu l = Np.scl 0 ∨
      (shf_second tI mu l).isMat ((tS + 1) * (tI + 1) * (l.map Neighbour.multH).prod) := by
  unfold shf_second
  apply foldl_add_shape
  · intro p
    apply Np.isMat_smul
    exact isMat_placeAt l p.1 _ (Np.isMat_mat _ _)
  · exact Or.inl rfl

lemma shape_sub_scl {A B : Np} {D : ℕ}
    (hA : A = Np.scl 0 ∨ A.isMat D) (hB : B = Np.scl 0 ∨ B.isMat D) :
    (Np.sub A B) = Np.scl (0 - 0) ∨ (Np.sub A B).isMat D := by
  rcases hA with hA | hA <;> rcases hB with hB | hB
  · subst hA; subst hB; exact Or.inl rfl
  · subst hA
    obtain ⟨N, rfl⟩ := hB
    exact Or.inr ⟨_, rfl⟩
  · subst hB
    obtain ⟨M, rfl⟩ := hA
    exact Or.inr ⟨_, rfl⟩
  · exact Or.inr (Np.isMat_sub hA hB)

lemma shape_initialize_SHF (tS tI : ℕ) (g : Matrix (Fin 3) (Fin 3) ℝ)
    (l : List Neighbour) :
    (∃ c, initialize_SHF tS tI g l = Np.scl c) ∨
      (initialize_SHF tS tI g l).isMat
        ((tS + 1) * (tI + 1) * (l.map Neighbour.multH).prod) := by
  unfold initialize_SHF
  rcases shape_sub_scl (shape_shf_first tS tI (mu_REI tS g) l)
      (shape_shf_second tS tI (mu_REI tS g) l) with h | h
  · rw [h]
    exact Or.inl ⟨_, rfl⟩
  · exact Or.inr (Np.isMat_smul _ (Np.isMat_smul _ h))

lemma isMat_HZ_el (tS tI : ℕ) (g : Matrix (Fin 3) (Fin 3) ℝ)
    (l : List Neighbour) (B theta phi : ℝ) :
    (HZ_el tS tI g l B theta phi).isMat
      ((tS + 1) * (tI + 1) * (l.map Neighbour.multH).prod) :=
  isMat_expandNb l (Np.isMat_kron (Np.isMat_mat _ _) (Np.isMat_idN _))

lemma isMat_HZ_n_rei (tS tI : ℕ) (g : ℝ) (l : List Neighbour) (B theta phi : ℝ) :
    (HZ_n_rei tS tI g l B theta phi).isMat
      ((tS + 1) * (tI + 1) * (l.map Neighbour.multH).prod) :=
  isMat_expandNb l (Np.isMat_kron (Np.isMat_idN _) (Np.isMat_mat _ _))

lemma shape_HZ_n_host (tS tI : ℕ) (l : List Neighbour) (B theta phi : ℝ) :
    HZ_n_host tS tI l B theta phi = Np.scl 0 ∨
      (HZ_n_host tS tI l B theta phi).isMat
        ((tS + 1) * (tI + 1) * (l.map Neighbour.multH).prod) := by
  unfold HZ_n_host
  apply foldl_add_shape
  · intro p
    exact isMat_placeAt l p.1 _ (Np.isMat_kron (Np.isMat_idN _) (Np.isMat_idN _))
  · exact Or.inl rfl

/-- The total Zeeman contribution added to one manifold's Hamiltonian. -/
def zeeman_term (tS tI : ℕ) (g : Matrix (Fin 3) (Fin 3) ℝ) (g_n_rei : ℝ)
    (l : List Neighbour) (B theta phi : ℝ) : Np :=
  Np.sub (Np.sub (HZ_el tS tI g l B theta phi) (HZ_n_rei tS tI g_n_rei l B theta phi))
    (HZ_n_host tS tI l B theta phi)

lemma isMat_zeeman_term (tS tI : ℕ) (g : Matrix (Fin 3) (Fin 3) ℝ) (gn : ℝ)
    (l : List Neighbour) (B theta phi : ℝ) :
    (zeeman_term tS tI g gn l B theta phi).isMat
      ((tS + 1) * (tI + 1) * (l.map Neighbour.multH).prod) := by
  unfold zeeman_term
  have h1 := Np.isMat_sub (isMat_HZ_el tS tI g l B theta phi)
    (isMat_HZ_n_rei tS tI gn l B theta phi)
  rcases shape_HZ_n_host tS tI l B theta phi with h2 | h2
  · rw [h2]
    exact Np.isMat_sub_scl_right _ h1
  · exact Np.isMat_sub h1 h2

/-! ### Unfolding lemmas for `init` and the updates (all definitional) -/

/-- The neighbour objects built from the raw input list. -/
def nbL (inp : List ((Fin 3 → ℝ) × ℕ × ℝ × String)) : List Neighbour :=
  inp.map (fun q => Neighbour.make q.1 q.2.1 q.2.2.1 q.2.2.2)

section InitFields

variable (eig : Np → List ℝ × Np) (tS tI : ℕ)
  (g_gs g_es A_gs A_es : Matrix (Fin 3) (Fin 3) ℝ) (g_n_rei : ℝ)
  (inp : List ((Fin 3 → ℝ) × ℕ × ℝ × String))

lemma init_HHF_gs :
    (init eig tS tI g_gs g_es A_gs A_es g_n_rei inp).HHF_gs
      = initialize_HHF_gs tS A_gs (nbL inp) := rfl

lemma init_HHF_es :
    (init eig tS tI g_gs g_es A_gs A_es g_n_rei inp).HHF_es
      = initialize_HHF_es tS tI A_es (nbL inp) := rfl

lemma init_SHF_gs :
    (init eig tS tI g_gs g_es A_gs A_es g_n_rei inp).H_SHF_gs
      = initialize_SHF tS tI g_gs (nbL inp) := rfl

lemma init_SHF_es :
    (init eig tS tI g_gs g_es A_gs A_es g_n_rei inp).H_SHF_es
      = initialize_SHF tS tI g_es (nbL inp) := rfl

lemma init_H_gs :
    (init eig tS tI g_gs g_es A_gs A_es g_n_rei inp).H_gs
      = Np.add (initialize_HHF_gs tS A_gs (nbL inp))
          (initialize_SHF tS tI g_gs (nbL inp)) := rfl

lemma init_H_es :
    (init eig tS tI g_gs g_es A_gs A_es g_n_rei inp).H_es
      = Np.add (initialize_HHF_es tS tI A_es (nbL inp))
          (initialize_SHF tS tI g_es (nbL inp)) := rfl

lemma init_dimTotal :
    (init eig tS tI g_gs g_es A_gs A_es g_n_rei inp).dimTotal
      = (tS + 1) * (tI + 1) * ((nbL inp).map Neighbour.multH).prod := rfl

end InitFields

lemma update_zeeman_H_gs (s : SpinSystem) (B theta phi : ℝ) :
    (update_zeeman_ham s B theta phi).H_gs
      = Np.add (Np.add s.HHF_gs s.H_SHF_gs)
          (zeeman_term s.tS s.tI s.g_gs s.g_n_rei s.neighbours B theta phi) := rfl

lemma update_zeeman_H_es (s : SpinSystem) (B theta phi : ℝ) :
    (update_zeeman_ham s B theta phi).H_es
      = Np.add (Np.add s.HHF_es s.H_SHF_es)
          (zeeman_term s.tS s.tI s.g_es s.g_n_rei s.neighbours B theta phi) := rfl

/-! ### Claim C1: composite dimensions -/

/-- An `Np.add` whose second argument is a scalar (broadcast) or a matrix
of the same dimension keeps that dimension. -/
lemma isMat_add_cached {A B : Np} {D : ℕ} (hA : A.isMat D)
    (hB : (∃ c, B = Np.scl c) ∨ B.isMat D) : (Np.add A B).isMat D := by
  rcases hB with ⟨c, rfl⟩ | hB
  · exact Np.isMat_add_scl_right _ hA
  · exact Np.isMat_add hA hB

/-- The dimension invariant of the spec's data model: the cached and the
working Hamiltonians of both manifolds are `D × D` for
`D = (2S+1)(2I+1)∏(2s_H+1)` (a field-independent cached superhyperfine
part may also be the scalar `0`, which broadcasts neutrally, as happens
for an empty neighbour list). -/
def DimInv (s : SpinSystem) : Prop :=
  s.HHF_gs.isMat s.dimTotal ∧ s.HHF_es.isMat s.dimTotal ∧
  ((∃ c, s.H_SHF_gs = Np.scl c) ∨ s.H_SHF_gs.isMat s.dimTotal) ∧
  ((∃ c, s.H_SHF_es = Np.scl c) ∨ s.H_SHF_es.isMat s.dimTotal) ∧
  s.H_gs.isMat s.dimTotal ∧ s.H_es.isMat s.dimTotal

lemma DimInv_reset {s : SpinSystem} (h : DimInv s) :
    DimInv (reset_ham s) := by
  obtain ⟨h1, h2, h3, h4, _, _⟩ := h
  exact ⟨h1, h2, h3, h4, isMat_add_cached h1 h3, isMat_add_cached h2 h4⟩

lemma DimInv_update_zeeman {s : SpinSystem} (B theta phi : ℝ) (h : DimInv s) :
    DimInv (update_zeeman_ham s B theta phi) := by
  obtain ⟨h1, h2, h3, h4, _, _⟩ := h
  refine ⟨h1, h2, h3, h4, ?_, ?_⟩
  · rw [update_zeeman_H_gs]
    exact Np.isMat_add (isMat_add_cached h1 h3) (isMat_zeeman_term _ _ _ _ _ _ _ _)
  · rw [update_zeeman_H_es]
    exact Np.isMat_add (isMat_add_cached h2 h4) (isMat_zeeman_term _ _ _ _ _ _ _ _)

lemma DimInv_calc (eig : Np → List ℝ × Np) {s : SpinSystem} (h : DimInv s) :
    DimInv (calc_energies eig s) := h

/-- C1 (amended: restricted to systems with `spinI = 0`, i.e. `multI = 1`;
the counterexample below shows the unrestricted claim fails).  On such a
configuration the freshly built system satisfies the dimension invariant
`DimInv` — both working Hamiltonians (and the cached terms) are square of
dimension exactly `D = (2S+1)(2I+1)∏(2s_H+1)` — and, for ANY system
satisfying the invariant, `reset_ham`, `update_zeeman_ham` and `update_B`
preserve both the invariant and `D` itself (`dimTotal` is untouched by all
three, definitionally), so the ground and excited Hamiltonians always
share the dimension `D`. -/
theorem claim_C1_dimension (eig : Np → List ℝ × Np) (tS tI : ℕ)
    (g_gs g_es A_gs A_es : Matrix (Fin 3) (Fin 3) ℝ) (g_n_rei : ℝ)
    (inp : List ((Fin 3 → ℝ) × ℕ × ℝ × String)) (hI : tI = 0) :
    DimInv (init eig tS tI g_gs g_es A_gs A_es g_n_rei inp) ∧
    (∀ (s : SpinSystem) (B theta phi : ℝ), DimInv s →
      ((reset_ham s).dimTotal = s.dimTotal ∧ DimInv (reset_ham s)) ∧
      ((update_zeeman_ham s B theta phi).dimTotal = s.dimTotal ∧
        DimInv (update_zeeman_ham s B theta phi)) ∧
      ((update_B eig s B theta phi).dimTotal = s.dimTotal ∧
        DimInv (update_B eig s B theta phi))) := by
  constructor
  · subst hI
    have hprod : (1 : ℕ) * 1 = 1 := rfl
    have hgs := isMat_initialize_HHF_gs tS A_gs (nbL inp)
    have hgs' : (initialize_HHF_gs tS A_gs (nbL inp)).isMat
        ((tS + 1) * (0 + 1) * ((nbL inp).map Neighbour.multH).prod) :=
      Np.isMat_congr hgs (by ring)
    have hes := isMat_initialize_HHF_es tS 0 A_es (nbL inp)
    have hshf_gs := shape_initialize_SHF tS 0 g_gs (nbL inp)
    have hshf_es := shape_initialize_SHF tS 0 g_es (nbL inp)
    refine ⟨?_, ?_, ?_, ?_, ?_, ?_⟩
    · rw [init_HHF_gs, init_dimTotal]
      exact hgs'
    · rw [init_HHF_es, init_dimTotal]
      exact hes
    · rw [init_SHF_gs, init_dimTotal]
      exact hshf_gs
    · rw [init_SHF_es, init_dimTotal]
      exact hshf_es
    · rw [init_H_gs, init_dimTotal]
      exact isMat_add_cached hgs' hshf_gs
    · rw [init_H_es, init_dimTotal]
      exact isMat_add_cached hes hshf_es
  · intro s B theta phi h
    exact ⟨⟨rfl, DimInv_reset h⟩,
      ⟨rfl, DimInv_update_zeeman B theta phi h⟩,
      ⟨rfl, DimInv_calc eig (DimInv_update_zeeman B theta phi h)⟩⟩

/-- A fixed concrete diagonaliser used for concrete systems: raw spectrum
of the right length, raw eigenvector matrix unchanged. -/
def eig0 : Np → List ℝ × Np := fun A => (List.replicate A.dim 0, A)

/-- Electron spin 1/2, ion-nucleus spin 1/2, zero couplings, no
neighbours. -/
def C1sys : SpinSystem := init eig0 1 1 0 0 0 0 0 []

/-- C1 counterexample: with `spinI = 1/2` (and no neighbours, so
construction does not crash), the freshly built ground Hamiltonian is
`2 × 2` while `D = (2S+1)(2I+1) = 4` and the excited Hamiltonian is
`4 × 4` — the ground-state working Hamiltonian does not have dimension
`D`, and the two manifolds' Hamiltonians do NOT share a dimension
(`initialize_HHF` never expands the ground-state term into the
ion-nucleus space). -/
theorem claim_C1_counterexample :
    C1sys.H_gs.isMat 2 ∧ C1sys.H_es.isMat 4 ∧ C1sys.dimTotal = 4 ∧
    ¬ C1sys.H_gs.isMat C1sys.dimTotal ∧
    ∀ n : ℕ, ¬ (C1sys.H_gs.isMat n ∧ C1sys.H_es.isMat n) := by
  have hgs : C1sys.H_gs.isMat 2 := by
    rw [show C1sys.H_gs
        = Np.add (Np.mat 2 (HHF_gs_core 1 0)) (initialize_SHF 1 1 0 []) from rfl,
      show initialize_SHF 1 1 0 []
        = Np.scl (((1 / (hP * 10 ^ 9) : ℝ) : ℂ) *
            (((1 / 10 ^ 7 : ℝ) : ℂ) * (0 - 0))) from rfl]
    exact Np.isMat_add_scl_right _ (Np.isMat_mat _ _)
  have hes : C1sys.H_es.isMat 4 := by
    rw [show C1sys.H_es
        = Np.add (Np.mat 4 (HHF_es_core 1 1 0)) (initialize_SHF 1 1 0 []) from rfl,
      show initialize_SHF 1 1 0 []
        = Np.scl (((1 / (hP * 10 ^ 9) : ℝ) : ℂ) *
            (((1 / 10 ^ 7 : ℝ) : ℂ) * (0 - 0))) from rfl]
    exact Np.isMat_add_scl_right _ (Np.isMat_mat _ _)
  have hD : C1sys.dimTotal = 4 := rfl
  refine ⟨hgs, hes, hD, ?_, ?_⟩
  · intro h
    have := Np.isMat_unique hgs (hD ▸ h)
    omega
  · intro n ⟨hg, he⟩
    have e1 := Np.isMat_unique hgs hg
    have e2 := Np.isMat_unique hes he
    omega

/-- Witness for C1 at a concrete input (electron spin 1/2, nuclear spin 0,
no neighbours, zero couplings). -/
theorem claim_C1_witness :
    DimInv (init eig0 1 0 0 0 0 0 0 []) ∧
    (∀ (s : SpinSystem) (B theta phi : ℝ), DimInv s →
      ((reset_ham s).dimTotal = s.dimTotal ∧ DimInv (reset_ham s)) ∧
      ((update_zeeman_ham s B theta phi).dimTotal = s.dimTotal ∧
        DimInv (update_zeeman_ham s B theta phi)) ∧
      ((update_B eig0 s B theta phi).dimTotal = s.dimTotal ∧
        DimInv (update_B eig0 s B theta phi))) :=
  claim_C1_dimension eig0 1 0 0 0 0 0 0 [] rfl

/-! ### Zero-field Zeeman terms vanish (for claim C4) -/

lemma kronF_zero_left {m n : ℕ} (N : Matrix (Fin n) (Fin n) ℂ) :
    kronF (0 : Matrix (Fin m) (Fin m) ℂ) N = 0 := by
  funext i j
  simp [kronF]

lemma kronF_zero_right {m n : ℕ} (M : Matrix (Fin m) (Fin m) ℂ) :
    kronF M (0 : Matrix (Fin n) (Fin n) ℂ) = 0 := by
  funext i j
  simp [kronF]

lemma mat_zero_congr {n m : ℕ} (h : n = m) :
    Np.mat n (0 : Matrix (Fin n) (Fin n) ℂ)
      = Np.mat m (0 : Matrix (Fin m) (Fin m) ℂ) := by
  subst h
  rfl

lemma expandNb_zeroM (l : List Neighbour) :
    ∀ n : ℕ, expandNb (Np.mat n (0 : Matrix (Fin n) (Fin n) ℂ)) l
      = Np.mat (n * (l.map Neighbour.multH).prod)
          (0 : Matrix _ _ ℂ) := by
  induction l with
  | nil =>
      intro n
      exact mat_zero_congr (by simp)
  | cons nb l' ih =>
      intro n
      have step : expandNb (Np.mat n (0 : Matrix (Fin n) (Fin n) ℂ)) (nb :: l')
          = expandNb (Np.mat (n * nb.multH) (kronF 0 1)) l' := rfl
      rw [step, kronF_zero_left, ih (n * nb.multH)]
      exact mat_zero_congr (by simp [mul_assoc])

lemma B_cart_zeroB (theta phi : ℝ) (i : Fin 3) : B_cart 0 theta phi i = 0 := by
  simp [B_cart]

lemma rowVecMul_B_cart_zero (g : Matrix (Fin 3) (Fin 3) ℝ) (theta phi : ℝ) (j : Fin 3) :
    rowVecMul (B_cart 0 theta phi) g j = 0 := by
  simp [rowVecMul, B_cart]

lemma dotVec_zeroV {d : ℕ} (v : Fin 3 → ℝ) (hv : ∀ i, v i = 0)
    (T : Fin 3 → Matrix (Fin d) (Fin d) ℂ) : dotVec v T = 0 := by
  unfold dotVec
  rw [Finset.sum_eq_zero]
  intro i _
  rw [hv i]
  simp

lemma HZ_el_zeroB (tS tI : ℕ) (g : Matrix (Fin 3) (Fin 3) ℝ) (l : List Neighbour)
    (theta phi : ℝ) :
    HZ_el tS tI g l 0 theta phi
      = Np.mat ((tS + 1) * (tI + 1) * (l.map Neighbour.multH).prod) 0 := by
  unfold HZ_el
  rw [dotVec_zeroV _ (rowVecMul_B_cart_zero g theta phi), smul_zero]
  have hk : Np.kron (Np.mat (tS + 1) (0 : Matrix (Fin (tS + 1)) (Fin (tS + 1)) ℂ))
      (Np.idN (tI + 1)) = Np.mat ((tS + 1) * (tI + 1)) 0 := by
    show Np.mat _ (kronF 0 1) = _
    rw [kronF_zero_left]
  rw [hk, expandNb_zeroM]

lemma HZ_n_rei_zeroB (tS tI : ℕ) (gn : ℝ) (l : List Neighbour) (theta phi : ℝ) :
    HZ_n_rei tS tI gn l 0 theta phi
      = Np.mat ((tS + 1) * (tI + 1) * (l.map Neighbour.multH).prod) 0 := by
  unfold HZ_n_rei
  rw [dotVec_zeroV _ (B_cart_zeroB theta phi), smul_zero]
  have hk : Np.kron (Np.idN (tS + 1))
      (Np.mat (tI + 1) (0 : Matrix (Fin (tI + 1)) (Fin (tI + 1)) ℂ))
      = Np.mat ((tS + 1) * (tI + 1)) 0 := by
    show Np.mat _ (kronF 1 0) = _
    rw [kronF_zero_right]
  rw [hk, expandNb_zeroM]

/-- Once a zero matrix enters the `placeAt` fold, the result is zero. -/
lemma fold_place_zero (nidx : ℕ)
    (f : (nb : Neighbour) → Matrix (Fin nb.multH) (Fin nb.multH) ℂ) :
    ∀ (l : List Neighbour) (k n : ℕ),
      (List.enumFrom k l).foldl
        (fun acc p =>
          if p.1 = nidx then Np.kron acc (Np.mat p.2.multH (f p.2))
          else Np.kron acc (Np.idN p.2.multH))
        (Np.mat n (0 : Matrix (Fin n) (Fin n) ℂ))
      = Np.mat (n * (l.map Neighbour.multH).prod) 0 := by
  intro l
  induction l with
  | nil =>
      intro k n
      exact mat_zero_congr (by simp)
  | cons nb l' ih =>
      intro k n
      by_cases hk : k = nidx
      · have step :
            (List.enumFrom k (nb :: l')).foldl
                (fun acc p =>
                  if p.1 = nidx then Np.kron acc (Np.mat p.2.multH (f p.2))
                  else Np.kron acc (Np.idN p.2.multH))
                (Np.mat n (0 : Matrix (Fin n) (Fin n) ℂ))
              = (List.enumFrom (k + 1) l').foldl
                  (fun acc p =>
                    if p.1 = nidx then Np.kron acc (Np.mat p.2.multH (f p.2))
                    else Np.kron acc (Np.idN p.2.multH))
                  (Np.mat (n * nb.multH) (kronF 0 (f nb))) := by
          simp only [List.enumFrom, List.foldl_cons, if_pos hk]
          rfl
        rw [step, kronF_zero_left, ih (k + 1) (n * nb.multH)]
        exact mat_zero_congr (by simp [mul_assoc])
      · have step :
            (List.enumFrom k (nb :: l')).foldl
                (fun acc p =>
                  if p.1 = nidx then Np.kron acc (Np.mat p.2.multH (f p.2))
                  else Np.kron acc (Np.idN p.2.multH))
                (Np.mat n (0 : Matrix (Fin n) (Fin n) ℂ))
              = (List.enumFrom (k + 1) l').foldl
                  (fun acc p =>
                    if p.1 = nidx then Np.kron acc (Np.mat p.2.multH (f p.2))
                    else Np.kron acc (Np.idN p.2.multH))
                  (Np.mat (n * nb.multH) (kronF 0 1)) := by
          simp only [List.enumFrom, List.foldl_cons, if_neg hk]
          rfl
        rw [step, kronF_zero_left, ih (k + 1) (n * nb.multH)]
        exact mat_zero_congr (by simp [mul_assoc])

/-- `placeAt` of an all-zero family over a covered index is zero. -/
lemma placeAt_zero_from (l : List Neighbour) (nidx : ℕ)
    (f : (nb : Neighbour) → Matrix (Fin nb.multH) (Fin nb.multH) ℂ)
    (hf : ∀ nb, f nb = 0) :
    ∀ (k : ℕ), k ≤ nidx → nidx < k + l.length →
      ∀ {n : ℕ} (A : Matrix (Fin n) (Fin n) ℂ),
        (List.enumFrom k l).foldl
          (fun acc p =>
            if p.1 = nidx then Np.kron acc (Np.mat p.2.multH (f p.2))
            else Np.kron acc (Np.idN p.2.multH))
          (Np.mat n A)
        = Np.mat (n * (l.map Neighbour.multH).prod) 0 := by
  induction l with
  | nil =>
      intro k hk1 hk2
      simp at hk2
      omega
  | cons nb l' ih =>
      intro k hk1 hk2 n A
      by_cases hk : k = nidx
      · have step :
            (List.enumFrom k (nb :: l')).foldl
                (fun acc p =>
                  if p.1 = nidx then Np.kron acc (Np.mat p.2.multH (f p.2))
                  else Np.kron acc (Np.idN p.2.multH))
                (Np.mat n A)
              = (List.enumFrom (k + 1) l').foldl
                  (fun acc p =>
                    if p.1 = nidx then Np.kron acc (Np.mat p.2.multH (f p.2))
                    else Np.kron acc (Np.idN p.2.multH))
                  (Np.mat (n * nb.multH) (kronF A (f nb))) := by
          simp only [List.enumFrom, List.foldl_cons, if_pos hk]
          rfl
        rw [step, hf nb, kronF_zero_right, fold_place_zero nidx f l' (k + 1)]
        exact mat_zero_congr (by simp [mul_assoc])
      · have step :
            (List.enumFrom k (nb :: l')).foldl
                (fun acc p =>
                  if p.1 = nidx then Np.kron acc (Np.mat p.2.multH (f p.2))
                  else Np.kron acc (Np.idN p.2.multH))
                (Np.mat n A)
              = (List.enumFrom (k + 1) l').foldl
                  (fun acc p =>
                    if p.1 = nidx then Np.kron acc (Np.mat p.2.multH (f p.2))
                    else Np.kron acc (Np.idN p.2.multH))
                  (Np.mat (n * nb.multH) (kronF A 1)) := by
          simp only [List.enumFrom, List.foldl_cons, if_neg hk]
          rfl
        rw [step, ih (k + 1) (by omega)
          (by have h2 := hk2; simp [List.length_cons] at h2; omega)]
        exact mat_zero_congr (by simp [mul_assoc])

lemma mem_enumFrom_bounds {α : Type} :
    ∀ (l : List α) (k : ℕ) (p : ℕ × α), p ∈ List.enumFrom k l →
      k ≤ p.1 ∧ p.1 < k + l.length := by
  intro l
  induction l with
  | nil => intro k p hp; simp [List.enumFrom] at hp
  | cons x l' ih =>
      intro k p hp
      rw [List.enumFrom, List.mem_cons] at hp
      rcases hp with hp | hp
      · subst hp
        simp
      · have := ih (k + 1) p hp
        constructor
        · omega
        · simp [List.length_cons]
          omega

lemma add_scl0_matzero (D : ℕ) :
    Np.add (Np.scl 0) (Np.mat D (0 : Matrix (Fin D) (Fin D) ℂ)) = Np.mat D 0 := by
  show Np.mat D _ = Np.mat D 0
  congr 1
  funext i j
  simp

lemma add_matzero_matzero (D : ℕ) :
    Np.add (Np.mat D (0 : Matrix (Fin D) (Fin D) ℂ)) (Np.mat D 0) = Np.mat D 0 := by
  rw [show Np.add (Np.mat D (0 : Matrix (Fin D) (Fin D) ℂ)) (Np.mat D 0)
      = Np.mat D (fun i j => (0 : Matrix (Fin D) (Fin D) ℂ) i j +
          (0 : Matrix (Fin D) (Fin D) ℂ) (Fin.cast rfl.symm i) (Fin.cast rfl.symm j))
    from by rw [Np.add, dif_pos rfl]]
  congr 1
  funext i j
  simp

lemma sub_matzero_matzero (D : ℕ) :
    Np.sub (Np.mat D (0 : Matrix (Fin D) (Fin D) ℂ)) (Np.mat D 0) = Np.mat D 0 := by
  rw [show Np.sub (Np.mat D (0 : Matrix (Fin D) (Fin D) ℂ)) (Np.mat D 0)
      = Np.mat D (fun i j => (0 : Matrix (Fin D) (Fin D) ℂ) i j -
          (0 : Matrix (Fin D) (Fin D) ℂ) (Fin.cast rfl.symm i) (Fin.cast rfl.symm j))
    from by rw [Np.sub, dif_pos rfl]]
  congr 1
  funext i j
  simp

lemma sub_matzero_scl0 (D : ℕ) :
    Np.sub (Np.mat D (0 : Matrix (Fin D) (Fin D) ℂ)) (Np.scl 0) = Np.mat D 0 := by
  show Np.mat D _ = Np.mat D 0
  congr 1
  funext i j
  simp

lemma add_mat_matzero (D : ℕ) (C : Matrix (Fin D) (Fin D) ℂ) :
    Np.add (Np.mat D C) (Np.mat D 0) = Np.mat D C := by
  rw [show Np.add (Np.mat D C) (Np.mat D 0)
      = Np.mat D (fun i j => C i j +
          (0 : Matrix (Fin D) (Fin D) ℂ) (Fin.cast rfl.symm i) (Fin.cast rfl.symm j))
    from by rw [Np.add, dif_pos rfl]]
  congr 1
  funext i j
  simp

lemma foldl_add_zeros {α : Type} (D : ℕ) (g : α → Np) :
    ∀ (l : List α), (∀ a ∈ l, g a = Np.mat D 0) →
      ∀ acc, (acc = Np.scl 0 ∨ acc = Np.mat D 0) →
        (l.foldl (fun acc a => Np.add acc (g a)) acc = Np.scl 0 ∨
          l.foldl (fun acc a => Np.add acc (g a)) acc = Np.mat D 0) := by
  intro l
  induction l with
  | nil => intro _ acc h; exact h
  | cons a l' ih =>
      intro hg acc h
      rw [List.foldl_cons]
      apply ih (fun b hb => hg b (List.mem_cons_of_mem a hb))
      right
      rw [hg a (List.mem_cons_self a l')]
      rcases h with h | h
      · rw [h, add_scl0_matzero]
      · rw [h, add_matzero_matzero]

lemma HZ_n_host_zeroB (tS tI : ℕ) (l : List Neighbour) (theta phi : ℝ) :
    HZ_n_host tS tI l 0 theta phi = Np.scl 0 ∨
      HZ_n_host tS tI l 0 theta phi
        = Np.mat ((tS + 1) * (tI + 1) * (l.map Neighbour.multH).prod) 0 := by
  unfold HZ_n_host
  apply foldl_add_zeros
  · intro p hp
    have hbounds := mem_enumFrom_bounds l 0 p hp
    unfold placeAt
    exact placeAt_zero_from l p.1
      (fun nb => ((beta_n * p.2.g_n_host : ℝ) : ℂ) •
        dotVec (B_cart 0 theta phi) (Neighbour.Hvec nb))
      (fun nb => by
        show ((beta_n * p.2.g_n_host : ℝ) : ℂ) •
            dotVec (B_cart 0 theta phi) (Neighbour.Hvec nb) = 0
        rw [dotVec_zeroV _ (B_cart_zeroB theta phi), smul_zero])
      0 (by omega) (by simpa using hbounds.2) _
  · exact Or.inl rfl

lemma zeeman_term_zeroB (tS tI : ℕ) (g : Matrix (Fin 3) (Fin 3) ℝ) (gn : ℝ)
    (l : List Neighbour) (theta phi : ℝ) :
    zeeman_term tS tI g gn l 0 theta phi
      = Np.mat ((tS + 1) * (tI + 1) * (l.map Neighbour.multH).prod) 0 := by
  unfold zeeman_term
  rw [HZ_el_zeroB, HZ_n_rei_zeroB, sub_matzero_matzero]
  rcases HZ_n_host_zeroB tS tI l theta phi with h | h
  · rw [h, sub_matzero_scl0]
  · rw [h, sub_matzero_matzero]

set_option maxHeartbeats 4000000 in
/-- C4: the Zeeman rebuild never accumulates.  (a) `update_zeeman_ham`
always produces `cached(hyperfine + superhyperfine) + zeeman_term(B, θ, φ)`
per manifold, regardless of the working Hamiltonians' previous contents;
(b) `update_B` is idempotent at a fixed field; (c) at `B = 0` the
working Hamiltonian equals the cached field-independent term exactly (the
hypotheses say the cached sums are genuine `D × D` matrices, as holds for
every `spinI = 0` configuration by the dimension lemmas above). -/
theorem claim_C4_zeeman_rebuild (eig : Np → List ℝ × Np) (s : SpinSystem)
    (B theta phi : ℝ)
    (hg : (Np.add s.HHF_gs s.H_SHF_gs).isMat s.dimTotal)
    (he : (Np.add s.HHF_es s.H_SHF_es).isMat s.dimTotal) :
    ((update_zeeman_ham s B theta phi).H_gs
        = Np.add (Np.add s.HHF_gs s.H_SHF_gs)
            (zeeman_term s.tS s.tI s.g_gs s.g_n_rei s.neighbours B theta phi) ∧
      (update_zeeman_ham s B theta phi).H_es
        = Np.add (Np.add s.HHF_es s.H_SHF_es)
            (zeeman_term s.tS s.tI s.g_es s.g_n_rei s.neighbours B theta phi)) ∧
    update_B eig (update_B eig s B theta phi) B theta phi
      = update_B eig s B theta phi ∧
    (update_zeeman_ham s 0 theta phi).H_gs = Np.add s.HHF_gs s.H_SHF_gs ∧
    (update_zeeman_ham s 0 theta phi).H_es = Np.add s.HHF_es s.H_SHF_es := by
  have hD : s.dimTotal
      = (s.tS + 1) * (s.tI + 1) * (s.neighbours.map Neighbour.multH).prod := rfl
  refine ⟨⟨update_zeeman_H_gs s B theta phi, update_zeeman_H_es s B theta phi⟩,
    rfl, ?_, ?_⟩
  · obtain ⟨C, hC⟩ := hg
    rw [update_zeeman_H_gs, zeeman_term_zeroB, hC, ← hD]
    exact add_mat_matzero _ C
  · obtain ⟨C, hC⟩ := he
    rw [update_zeeman_H_es, zeeman_term_zeroB, hC, ← hD]
    exact add_mat_matzero _ C

/-- Witness for C4 at the concrete spin-0 system with no neighbours (the
cached sums are `1 × 1` matrices there). -/
theorem claim_C4_witness :
    (((update_zeeman_ham (init eig0 0 0 0 0 0 0 0 []) 1 1 1).H_gs
        = Np.add (Np.add (init eig0 0 0 0 0 0 0 0 []).HHF_gs
            (init eig0 0 0 0 0 0 0 0 []).H_SHF_gs)
            (zeeman_term 0 0 0 0 [] 1 1 1) ∧
      (update_zeeman_ham (init eig0 0 0 0 0 0 0 0 []) 1 1 1).H_es
        = Np.add (Np.add (init eig0 0 0 0 0 0 0 0 []).HHF_es
            (init eig0 0 0 0 0 0 0 0 []).H_SHF_es)
            (zeeman_term 0 0 0 0 [] 1 1 1)) ∧
    update_B eig0 (update_B eig0 (init eig0 0 0 0 0 0 0 0 []) 1 1 1) 1 1 1
      = update_B eig0 (init eig0 0 0 0 0 0 0 0 []) 1 1 1 ∧
    (update_zeeman_ham (init eig0 0 0 0 0 0 0 0 []) 0 1 1).H_gs
      = Np.add (init eig0 0 0 0 0 0 0 0 []).HHF_gs
          (init eig0 0 0 0 0 0 0 0 []).H_SHF_gs ∧
    (update_zeeman_ham (init eig0 0 0 0 0 0 0 0 []) 0 1 1).H_es
      = Np.add (init eig0 0 0 0 0 0 0 0 []).HHF_es
          (init eig0 0 0 0 0 0 0 0 []).H_SHF_es) :=
  claim_C4_zeeman_rebuild eig0 (init eig0 0 0 0 0 0 0 0 []) 1 1 1
    (by
      rw [show (init eig0 0 0 0 0 0 0 0 []).HHF_gs
            = Np.mat 1 (HHF_gs_core 0 0) from rfl,
        show (init eig0 0 0 0 0 0 0 0 []).H_SHF_gs
            = Np.scl (((1 / (hP * 10 ^ 9) : ℝ) : ℂ) *
                (((1 / 10 ^ 7 : ℝ) : ℂ) * (0 - 0))) from rfl]
      exact Np.isMat_add_scl_right _ (Np.isMat_mat 1 _))
    (by
      rw [show (init eig0 0 0 0 0 0 0 0 []).HHF_es
            = Np.mat 1 (HHF_es_core 0 0 0) from rfl,
        show (init eig0 0 0 0 0 0 0 0 []).H_SHF_es
            = Np.scl (((1 / (hP * 10 ^ 9) : ℝ) : ℂ) *
                (((1 / 10 ^ 7 : ℝ) : ℂ) * (0 - 0))) from rfl]
      exact Np.isMat_add_scl_right _ (Np.isMat_mat 1 _))

end SpinSystem

/-! ## Hermiticity (claim C3) -/

lemma herm_entry {n : ℕ} {M : Matrix (Fin n) (Fin n) ℂ}
    (h : M.conjTranspose = M) (i j : Fin n) :
    (starRingEnd ℂ) (M j i) = M i j := by
  conv_rhs => rw [← h]
  rfl

lemma sxM_herm (t : ℕ) : (sxM t).conjTranspose = sxM t := by
  apply Matrix.ext
  intro r c
  rw [Matrix.conjTranspose_apply]
  unfold sxM triM
  by_cases h1 : (r : ℕ) + 1 = (c : ℕ)
  · have h2 : ¬((c : ℕ) + 1 = (r : ℕ)) := by omega
    simp [h1, h2, Complex.conj_ofReal]
  · by_cases h2 : (c : ℕ) + 1 = (r : ℕ) <;>
      simp [h1, h2, Complex.conj_ofReal]

lemma syM_herm (t : ℕ) : (syM t).conjTranspose = syM t := by
  apply Matrix.ext
  intro r c
  rw [Matrix.conjTranspose_apply]
  unfold syM triM
  by_cases h1 : (r : ℕ) + 1 = (c : ℕ)
  · have h2 : ¬((c : ℕ) + 1 = (r : ℕ)) := by omega
    rw [if_neg h2, if_pos h1, if_pos h1]
    simp only [Complex.star_def, map_mul, map_div₀, Complex.conj_I,
      Complex.conj_ofReal, map_ofNat]
    ring
  · by_cases h2 : (c : ℕ) + 1 = (r : ℕ)
    · rw [if_pos h2, if_neg h1, if_pos h2]
      simp only [Complex.star_def, map_mul, map_div₀, Complex.conj_I,
        Complex.conj_ofReal, map_neg, map_ofNat]
      ring
    · rw [if_neg h2, if_neg h1, if_neg h1, if_neg h2]
      simp

lemma szM_herm (t : ℕ) : (szM t).conjTranspose = szM t := by
  apply Matrix.ext
  intro r c
  rw [Matrix.conjTranspose_apply]
  unfold szM diagM
  by_cases h1 : (r : ℕ) = (c : ℕ)
  · simp [h1, Complex.conj_ofReal]
  · have h2 : ¬((c : ℕ) = (r : ℕ)) := fun h => h1 h.symm
    simp [h1, h2]

lemma Svec_herm (t : ℕ) (i : Fin 3) : (Svec t i).conjTranspose = Svec t i := by
  fin_cases i
  · exact sxM_herm t
  · exact syM_herm t
  · exact szM_herm t

lemma Hvec_herm (nb : Neighbour) (i : Fin 3) :
    (Neighbour.Hvec nb i).conjTranspose = Neighbour.Hvec nb i := by
  fin_cases i
  · exact sxM_herm nb.tH
  · exact syM_herm nb.tH
  · exact szM_herm nb.tH

lemma smul_real_herm {d : ℕ} (x : ℝ) {M : Matrix (Fin d) (Fin d) ℂ}
    (h : M.conjTranspose = M) :
    (((x : ℝ) : ℂ) • M).conjTranspose = ((x : ℝ) : ℂ) • M := by
  rw [Matrix.conjTranspose_smul, h, Complex.star_def, Complex.conj_ofReal]

lemma sum_herm {d : ℕ} {ι : Type} [Fintype ι] (f : ι → Matrix (Fin d) (Fin d) ℂ)
    (h : ∀ i, (f i).conjTranspose = f i) :
    (∑ i, f i).conjTranspose = ∑ i, f i := by
  rw [Matrix.conjTranspose_sum]
  exact Finset.sum_congr rfl (fun i _ => h i)

lemma applyA_herm {d : ℕ} (A : Matrix (Fin 3) (Fin 3) ℝ)
    {T : Fin 3 → Matrix (Fin d) (Fin d) ℂ}
    (hT : ∀ j, (T j).conjTranspose = T j) (i : Fin 3) :
    (applyA A T i).conjTranspose = applyA A T i := by
  unfold applyA
  exact sum_herm _ (fun j => smul_real_herm (A i j) (hT j))

lemma dotVec_herm {d : ℕ} (v : Fin 3 → ℝ)
    {T : Fin 3 → Matrix (Fin d) (Fin d) ℂ}
    (hT : ∀ j, (T j).conjTranspose = T j) :
    (dotVec v T).conjTranspose = dotVec v T := by
  unfold dotVec
  exact sum_herm _ (fun j => smul_real_herm (v j) (hT j))

lemma kronF_conjT {m n : ℕ} (M : Matrix (Fin m) (Fin m) ℂ)
    (N : Matrix (Fin n) (Fin n) ℂ) :
    (kronF M N).conjTranspose = kronF M.conjTranspose N.conjTranspose := by
  apply Matrix.ext
  intro i j
  rw [Matrix.conjTranspose_apply]
  unfold kronF
  rw [Matrix.conjTranspose_apply, Matrix.conjTranspose_apply]
  exact star_mul' _ _

lemma kronF_herm {m n : ℕ} {M : Matrix (Fin m) (Fin m) ℂ}
    {N : Matrix (Fin n) (Fin n) ℂ} (hM : M.conjTranspose = M)
    (hN : N.conjTranspose = N) :
    (kronF M N).conjTranspose = kronF M N := by
  rw [kronF_conjT, hM, hN]

/-- The ground hyperfine core `∑ i, S_i (A S)_i` is Hermitian when the
coupling tensor is symmetric (the commutators `[S_i, S_j]` otherwise break
it; see the counterexample). -/
lemma HHF_gs_core_herm (tS : ℕ) {A : Matrix (Fin 3) (Fin 3) ℝ}
    (hA : A.transpose = A) :
    (SpinSystem.HHF_gs_core tS A).conjTranspose = SpinSystem.HHF_gs_core tS A := by
  have hAe : ∀ i j, A j i = A i j := by
    intro i j
    conv_rhs => rw [← hA]
    rfl
  unfold SpinSystem.HHF_gs_core applyA
  rw [Matrix.conjTranspose_sum]
  have step1 : ∀ i : Fin 3,
      (Svec tS i * ∑ j, ((A i j : ℝ) : ℂ) • Svec tS j).conjTranspose
        = (∑ j, ((A i j : ℝ) : ℂ) • Svec tS j) * Svec tS i := by
    intro i
    rw [Matrix.conjTranspose_mul, Svec_herm,
      sum_herm _ (fun j => smul_real_herm (A i j) (Svec_herm tS j))]
  rw [Finset.sum_congr rfl (fun i _ => step1 i)]
  have expand : ∀ i : Fin 3,
      (∑ j, ((A i j : ℝ) : ℂ) • Svec tS j) * Svec tS i
        = ∑ j, ((A i j : ℝ) : ℂ) • (Svec tS j * Svec tS i) := by
    intro i
    rw [Finset.sum_mul]
    exact Finset.sum_congr rfl (fun j _ => smul_mul_assoc _ _ _)
  rw [Finset.sum_congr rfl (fun i _ => expand i), Finset.sum_comm]
  have collapse : ∀ i : Fin 3,
      (∑ j, ((A j i : ℝ) : ℂ) • (Svec tS i * Svec tS j))
        = Svec tS i * ∑ j, ((A i j : ℝ) : ℂ) • Svec tS j := by
    intro i
    rw [Finset.mul_sum]
    refine Finset.sum_congr rfl (fun j _ => ?_)
    rw [hAe j i, mul_smul_comm]
  exact Finset.sum_congr rfl (fun i _ => collapse i)

/-- The excited hyperfine core is Hermitian for every real `A`: each
summand is a Kronecker product of Hermitian factors. -/
lemma HHF_es_core_herm (tS tI : ℕ) (A : Matrix (Fin 3) (Fin 3) ℝ) :
    (SpinSystem.HHF_es_core tS tI A).conjTranspose
      = SpinSystem.HHF_es_core tS tI A := by
  unfold SpinSystem.HHF_es_core
  exact sum_herm _ (fun i =>
    kronF_herm (Svec_herm tI i) (applyA_herm A (Svec_herm tS) i))

/-! ### Hermiticity at the `Np` level -/

namespace Np

lemma herm_scl0 : (Np.scl 0).herm := map_zero _

lemma herm_mat {n : ℕ} {M : Matrix (Fin n) (Fin n) ℂ}
    (h : M.conjTranspose = M) : (Np.mat n M).herm := h

lemma herm_idN (n : ℕ) : (Np.idN n).herm := Matrix.conjTranspose_one

lemma herm_add : ∀ {A B : Np}, A.herm → B.herm → (Np.add A B).herm := by
  intro A B hA hB
  cases A with
  | err => cases B <;> exact trivial
  | scl a =>
      cases B with
      | err => exact trivial
      | scl b =>
          show (starRingEnd ℂ) (a + b) = a + b
          rw [map_add, hA, hB]
      | mat n M =>
          show (Matrix.conjTranspose _) = _
          apply Matrix.ext
          intro i j
          rw [Matrix.conjTranspose_apply]
          show (starRingEnd ℂ) (a + M j i) = a + M i j
          rw [map_add, hA, herm_entry hB]
  | mat n M =>
      cases B with
      | err => exact trivial
      | scl b =>
          show (Matrix.conjTranspose _) = _
          apply Matrix.ext
          intro i j
          rw [Matrix.conjTranspose_apply]
          show (starRingEnd ℂ) (M j i + b) = M i j + b
          rw [map_add, hB, herm_entry hA]
      | mat m N =>
          have hred : Np.add (Np.mat n M) (Np.mat m N)
              = if h : m = n then
                  Np.mat n (fun i j =>
                    M i j + N (Fin.cast h.symm i) (Fin.cast h.symm j))
                else Np.err := rfl
          rw [hred]
          by_cases h : m = n
          · subst h
            rw [dif_pos rfl]
            show (Matrix.conjTranspose _) = _
            apply Matrix.ext
            intro i j
            rw [Matrix.conjTranspose_apply]
            show (starRingEnd ℂ) (M j i + N _ _) = M i j + N _ _
            rw [map_add, herm_entry hA, herm_entry hB]
          · rw [dif_neg h]
            exact trivial

lemma herm_sub : ∀ {A B : Np}, A.herm → B.herm → (Np.sub A B).herm := by
  intro A B hA hB
  cases A with
  | err => cases B <;> exact trivial
  | scl a =>
      cases B with
      | err => exact trivial
      | scl b =>
          show (starRingEnd ℂ) (a - b) = a - b
          rw [map_sub, hA, hB]
      | mat n M =>
          show (Matrix.conjTranspose _) = _
          apply Matrix.ext
          intro i j
          rw [Matrix.conjTranspose_apply]
          show (starRingEnd ℂ) (a - M j i) = a - M i j
          rw [map_sub, hA, herm_entry hB]
  | mat n M =>
      cases B with
      | err => exact trivial
      | scl b =>
          show (Matrix.conjTranspose _) = _
          apply Matrix.ext
          intro i j
          rw [Matrix.conjTranspose_apply]
          show (starRingEnd ℂ) (M j i - b) = M i j - b
          rw [map_sub, hB, herm_entry hA]
      | mat m N =>
          have hred : Np.sub (Np.mat n M) (Np.mat m N)
              = if h : m = n then
                  Np.mat n (fun i j =>
                    M i j - N (Fin.cast h.symm i) (Fin.cast h.symm j))
                else Np.err := rfl
          rw [hred]
          by_cases h : m = n
          · subst h
            rw [dif_pos rfl]
            show (Matrix.conjTranspose _) = _
            apply Matrix.ext
            intro i j
            rw [Matrix.conjTranspose_apply]
            show (starRingEnd ℂ) (M j i - N _ _) = M i j - N _ _
            rw [map_sub, herm_entry hA, herm_entry hB]
          · rw [dif_neg h]
            exact trivial

lemma herm_smul_real (x : ℝ) : ∀ {A : Np}, A.herm →
    (Np.smul ((x : ℝ) : ℂ) A).herm := by
  intro A hA
  cases A with
  | err => exact trivial
  | scl a =>
      show (starRingEnd ℂ) (((x : ℝ) : ℂ) * a) = ((x : ℝ) : ℂ) * a
      rw [map_mul, hA, Complex.conj_ofReal]
  | mat n M =>
      show (Matrix.conjTranspose _) = _
      apply Matrix.ext
      intro i j
      rw [Matrix.conjTranspose_apply]
      show (starRingEnd ℂ) (((x : ℝ) : ℂ) * M j i) = ((x : ℝ) : ℂ) * M i j
      rw [map_mul, Complex.conj_ofReal, herm_entry hA]

lemma herm_kron : ∀ {A B : Np}, A.herm → B.herm → (Np.kron A B).herm := by
  intro A B hA hB
  cases A with
  | err => exact trivial
  | scl a => cases B <;> exact trivial
  | mat n M =>
      cases B with
      | err => exact trivial
      | scl b => exact trivial
      | mat m N =>
          show (kronF M N).conjTranspose = kronF M N
          exact kronF_herm hA hB

end Np

lemma herm_expandNb (l : List Neighbour) :
    ∀ {A : Np}, A.herm → (expandNb A l).herm := by
  induction l with
  | nil => intro A h; exact h
  | cons nb l' ih =>
      intro A h
      exact ih (Np.herm_kron h (Np.herm_idN nb.multH))

lemma herm_placeAt_from (l : List Neighbour) (nidx : ℕ)
    (f : (nb : Neighbour) → Matrix (Fin nb.multH) (Fin nb.multH) ℂ)
    (hf : ∀ nb, (f nb).conjTranspose = f nb) :
    ∀ (k : ℕ) {A : Np}, A.herm →
      ((List.enumFrom k l).foldl
        (fun acc p =>
          if p.1 = nidx then Np.kron acc (Np.mat p.2.multH (f p.2))
          else Np.kron acc (Np.idN p.2.multH)) A).herm := by
  induction l with
  | nil => intro k A h; exact h
  | cons nb l' ih =>
      intro k A h
      have step :
          (List.enumFrom k (nb :: l')).foldl
              (fun acc p =>
                if p.1 = nidx then Np.kron acc (Np.mat p.2.multH (f p.2))
                else Np.kron acc (Np.idN p.2.multH)) A
            = (List.enumFrom (k + 1) l').foldl
                (fun acc p =>
                  if p.1 = nidx then Np.kron acc (Np.mat p.2.multH (f p.2))
                  else Np.kron acc (Np.idN p.2.multH))
                (if k = nidx then Np.kron A (Np.mat nb.multH (f nb))
                 else Np.kron A (Np.idN nb.multH)) := rfl
      rw [step]
      apply ih (k + 1)
      by_cases hk : k = nidx
      · rw [if_pos hk]
        exact Np.herm_kron h (Np.herm_mat (hf nb))
      · rw [if_neg hk]
        exact Np.herm_kron h (Np.herm_idN nb.multH)

lemma herm_placeAt {A : Np} (l : List Neighbour) (nidx : ℕ)
    (f : (nb : Neighbour) → Matrix (Fin nb.multH) (Fin nb.multH) ℂ)
    (hf : ∀ nb, (f nb).conjTranspose = f nb) (hA : A.herm) :
    (placeAt A l nidx f).herm :=
  herm_placeAt_from l nidx f hf 0 hA

lemma herm_foldl_add {α : Type} (g : α → Np) (hg : ∀ a, (g a).herm) :
    ∀ (l : List α) (acc : Np), acc.herm →
      (l.foldl (fun acc a => Np.add acc (g a)) acc).herm := by
  intro l
  induction l with
  | nil => intro acc h; exact h
  | cons a l' ih =>
      intro acc h
      rw [List.foldl_cons]
      exact ih _ (Np.herm_add h (hg a))

namespace SpinSystem

/-! ### Hermiticity of the assembled pieces -/

lemma mu_REI_herm (tS : ℕ) (g : Matrix (Fin 3) (Fin 3) ℝ) (i : Fin 3) :
    (mu_REI tS g i).conjTranspose = mu_REI tS g i :=
  smul_real_herm (-mu_b) (applyA_herm g (Svec_herm tS) i)

lemma mu_host_herm (nb : Neighbour) (i : Fin 3) :
    (mu_host nb i).conjTranspose = mu_host nb i :=
  smul_real_herm (mu_n * nb.g_n_host) (Hvec_herm nb i)

lemma herm_initialize_HHF_gs (tS : ℕ) {A : Matrix (Fin 3) (Fin 3) ℝ}
    (hA : A.transpose = A) (l : List Neighbour) :
    (initialize_HHF_gs tS A l).herm :=
  herm_expandNb l (Np.herm_mat (HHF_gs_core_herm tS hA))

lemma herm_initialize_HHF_es (tS tI : ℕ) (A : Matrix (Fin 3) (Fin 3) ℝ)
    (l : List Neighbour) : (initialize_HHF_es tS tI A l).herm :=
  herm_expandNb l (Np.herm_mat (HHF_es_core_herm tS tI A))

lemma herm_shf_first (tS tI : ℕ)
    {mu : Fin 3 → Matrix (Fin (tS + 1)) (Fin (tS + 1)) ℂ}
    (hmu : ∀ i, (mu i).conjTranspose = mu i) (l : List Neighbour) :
    (shf_first tI mu l).herm := by
  unfold shf_first
  have main : ∀ (ps : List (ℕ × Neighbour)) (acc : Np), acc.herm →
      (ps.foldl
        (fun acc p =>
          (List.finRange 3).foldl
            (fun acc2 i =>
              Np.add acc2 (Np.smul ((1 / p.2.R ^ 3 : ℝ) : ℂ)
                (placeAt
                  (Np.mat ((tS + 1) * (tI + 1))
                    (kronF (mu i) (1 : Matrix (Fin (tI + 1)) (Fin (tI + 1)) ℂ)))
                  l p.1 (fun nb => mu_host nb i))))
            acc) acc).herm := by
    intro ps
    induction ps with
    | nil => intro acc h; exact h
    | cons p ps' ih =>
        intro acc h
        rw [List.foldl_cons]
        apply ih
        apply herm_foldl_add
        · intro i
          exact Np.herm_smul_real _
            (herm_placeAt l p.1 _ (fun nb => mu_host_herm nb i)
              (Np.herm_mat (kronF_herm (hmu i) Matrix.conjTranspose_one)))
        · exact h
  exact main l.enum (Np.scl 0) Np.herm_scl0

lemma herm_shf_second (tS tI : ℕ)
    {mu : Fin 3 → Matrix (Fin (tS + 1)) (Fin (tS + 1)) ℂ}
    (hmu : ∀ i, (mu i).conjTranspose = mu i) (l : List Neighbour) :
    (shf_second tI mu l).herm := by
  unfold shf_second
  apply herm_foldl_add
  · intro p
    exact Np.herm_smul_real _
      (herm_placeAt l p.1 _
        (fun nb => dotVec_herm _ (fun i => mu_host_herm nb i))
        (Np.herm_mat (kronF_herm (dotVec_herm _ hmu) Matrix.conjTranspose_one)))
  · exact Np.herm_scl0

lemma herm_initialize_SHF (tS tI : ℕ) (g : Matrix (Fin 3) (Fin 3) ℝ)
    (l : List Neighbour) : (initialize_SHF tS tI g l).herm :=
  Np.herm_smul_real _
    (Np.herm_smul_real _
      (Np.herm_sub (herm_shf_first tS tI (mu_REI_herm tS g) l)
        (herm_shf_second tS tI (mu_REI_herm tS g) l)))

lemma herm_HZ_el (tS tI : ℕ) (g : Matrix (Fin 3) (Fin 3) ℝ) (l : List Neighbour)
    (B theta phi : ℝ) : (HZ_el tS tI g l B theta phi).herm :=
  herm_expandNb l
    (Np.herm_kron
      (Np.herm_mat (smul_real_herm beta_el (dotVec_herm _ (Svec_herm tS))))
      (Np.herm_idN _))

lemma herm_HZ_n_rei (tS tI : ℕ) (gn : ℝ) (l : List Neighbour)
    (B theta phi : ℝ) : (HZ_n_rei tS tI gn l B theta phi).herm :=
  herm_expandNb l
    (Np.herm_kron (Np.herm_idN _)
      (Np.herm_mat (smul_real_herm (beta_n * gn) (dotVec_herm _ (Svec_herm tI)))))

lemma herm_HZ_n_host (tS tI : ℕ) (l : List Neighbour) (B theta phi : ℝ) :
    (HZ_n_host tS tI l B theta phi).herm := by
  unfold HZ_n_host
  apply herm_foldl_add
  · intro p
    exact herm_placeAt l p.1 _
      (fun nb => smul_real_herm (beta_n * p.2.g_n_host)
        (dotVec_herm _ (Hvec_herm nb)))
      (Np.herm_kron (Np.herm_idN _) (Np.herm_idN _))
  · exact Np.herm_scl0

lemma herm_zeeman_term (tS tI : ℕ) (g : Matrix (Fin 3) (Fin 3) ℝ) (gn : ℝ)
    (l : List Neighbour) (B theta phi : ℝ) :
    (zeeman_term tS tI g gn l B theta phi).herm :=
  Np.herm_sub
    (Np.herm_sub (herm_HZ_el tS tI g l B theta phi)
      (herm_HZ_n_rei tS tI gn l B theta phi))
    (herm_HZ_n_host tS tI l B theta phi)

/-- The Hermiticity invariant: all cached and working Hamiltonians are
Hermitian (`Np.herm`). -/
def HermInv (s : SpinSystem) : Prop :=
  s.HHF_gs.herm ∧ s.HHF_es.herm ∧ s.H_SHF_gs.herm ∧ s.H_SHF_es.herm ∧
  s.H_gs.herm ∧ s.H_es.herm

/-- C3 (amended: the ground-state hyperfine tensor must be symmetric;
the counterexample below shows an asymmetric `A_gs` breaks Hermiticity,
because the ground core is `∑ S_i (A S)_i`, a product of non-commuting
operators).  For any real `g`-matrices, any real `A_es`, symmetric
`A_gs`, real nuclear g-factors and displacement vectors: the freshly
built system satisfies `HermInv`, and `reset_ham` / `update_zeeman_ham` /
`update_B` (for any field) preserve it, so every Hamiltonian the
assembler ever produces is Hermitian — exactly, hence within the spec's
`1e-9` tolerance. -/
theorem claim_C3_hermitian (eig : Np → List ℝ × Np) (tS tI : ℕ)
    (g_gs g_es A_gs A_es : Matrix (Fin 3) (Fin 3) ℝ) (g_n_rei : ℝ)
    (inp : List ((Fin 3 → ℝ) × ℕ × ℝ × String))
    (hA : A_gs.transpose = A_gs) :
    HermInv (init eig tS tI g_gs g_es A_gs A_es g_n_rei inp) ∧
    (∀ (s : SpinSystem) (B theta phi : ℝ), HermInv s →
      HermInv (reset_ham s) ∧ HermInv (update_zeeman_ham s B theta phi) ∧
      HermInv (update_B eig s B theta phi)) := by
  constructor
  · refine ⟨?_, ?_, ?_, ?_, ?_, ?_⟩
    · rw [init_HHF_gs]
      exact herm_initialize_HHF_gs tS hA (nbL inp)
    · rw [init_HHF_es]
      exact herm_initialize_HHF_es tS tI A_es (nbL inp)
    · rw [init_SHF_gs]
      exact herm_initialize_SHF tS tI g_gs (nbL inp)
    · rw [init_SHF_es]
      exact herm_initialize_SHF tS tI g_es (nbL inp)
    · rw [init_H_gs]
      exact Np.herm_add (herm_initialize_HHF_gs tS hA (nbL inp))
        (herm_initialize_SHF tS tI g_gs (nbL inp))
    · rw [init_H_es]
      exact Np.herm_add (herm_initialize_HHF_es tS tI A_es (nbL inp))
        (herm_initialize_SHF tS tI g_es (nbL inp))
  · intro s B theta phi h
    obtain ⟨h1, h2, h3, h4, _, _⟩ := h
    have hreset : HermInv (reset_ham s) :=
      ⟨h1, h2, h3, h4, Np.herm_add h1 h3, Np.herm_add h2 h4⟩
    have hupd : HermInv (update_zeeman_ham s B theta phi) := by
      refine ⟨h1, h2, h3, h4, ?_, ?_⟩
      · rw [update_zeeman_H_gs]
        exact Np.herm_add (Np.herm_add h1 h3)
          (herm_zeeman_term _ _ _ _ _ _ _ _)
      · rw [update_zeeman_H_es]
        exact Np.herm_add (Np.herm_add h2 h4)
          (herm_zeeman_term _ _ _ _ _ _ _ _)
    exact ⟨hreset, hupd, hupd⟩

/-- Witness for C3 with the (symmetric) zero tensors at spin 1/2. -/
theorem claim_C3_witness :
    HermInv (init eig0 1 0 0 0 0 0 0 []) ∧
    (∀ (s : SpinSystem) (B theta phi : ℝ), HermInv s →
      HermInv (reset_ham s) ∧ HermInv (update_zeeman_ham s B theta phi) ∧
      HermInv (update_B eig0 s B theta phi)) :=
  claim_C3_hermitian eig0 1 0 0 0 0 0 0 [] (by simp)

end SpinSystem

/-! ### C3 counterexample: an asymmetric ground hyperfine tensor -/

lemma aval_one_zero : aval 1 0 = 1 := by
  rw [aval_eq]
  norm_num

/-- The real 3×3 matrix with a single 1 in the (x, y) slot. -/
def A01 : Matrix (Fin 3) (Fin 3) ℝ :=
  fun i j => if i = 0 ∧ j = 1 then 1 else 0

/-- Electron spin 1/2, nuclear spin 0, no neighbours, ground hyperfine
tensor `A01` (not symmetric). -/
def C3sys : SpinSystem := SpinSystem.init SpinSystem.eig0 1 0 0 0 A01 0 0 []

lemma C3_core_eq : SpinSystem.HHF_gs_core 1 A01 = sxM 1 * syM 1 := by
  unfold SpinSystem.HHF_gs_core applyA A01 Svec
  rw [Fin.sum_univ_three]
  rw [Fin.sum_univ_three, Fin.sum_univ_three, Fin.sum_univ_three]
  norm_num
  rw [if_neg (by decide), if_neg (by decide), if_neg (by decide)]
  simp

lemma C3_core_entry :
    SpinSystem.HHF_gs_core 1 A01 0 0 = Complex.I / 4 := by
  rw [C3_core_eq, Matrix.mul_apply, Fin.sum_univ_two]
  unfold sxM syM triM
  norm_num [aval_one_zero]
  ring

/-- C3 counterexample: with `A_gs = A01` (a non-symmetric tensor) the
assembled ground Hamiltonian has `(0,0)`-entry `i/4`, is NOT Hermitian,
and violates the claimed `1e-9` tolerance by a margin of `1/2`. -/
theorem claim_C3_counterexample :
    Np.entry C3sys.H_gs 0 0 = Complex.I / 4 ∧
    ¬ C3sys.H_gs.herm ∧
    (1 / 10 ^ 9 : ℝ) < Complex.abs
      (Np.entry C3sys.H_gs 0 0 - (starRingEnd ℂ) (Np.entry C3sys.H_gs 0 0)) := by
  have hz : ((1 / (SpinSystem.hP * 10 ^ 9) : ℝ) : ℂ) *
      (((1 / 10 ^ 7 : ℝ) : ℂ) * (0 - 0)) = 0 := by ring
  have hH : C3sys.H_gs = Np.mat 2 (fun i j =>
      SpinSystem.HHF_gs_core 1 A01 i j +
        ((1 / (SpinSystem.hP * 10 ^ 9) : ℝ) : ℂ) *
          (((1 / 10 ^ 7 : ℝ) : ℂ) * (0 - 0))) := rfl
  have hentry : Np.entry C3sys.H_gs 0 0 = Complex.I / 4 := by
    rw [hH]
    show (if h : 0 < 2 ∧ 0 < 2 then
        SpinSystem.HHF_gs_core 1 A01 ⟨0, by omega⟩ ⟨0, by omega⟩ +
          ((1 / (SpinSystem.hP * 10 ^ 9) : ℝ) : ℂ) *
            (((1 / 10 ^ 7 : ℝ) : ℂ) * (0 - 0))
      else 0) = Complex.I / 4
    rw [dif_pos (by omega)]
    rw [show ((⟨0, by omega⟩ : Fin 2)) = (0 : Fin 2) from rfl, C3_core_entry, hz,
      add_zero]
  have h4 : (starRingEnd ℂ) (4 : ℂ) = 4 := by
    rw [show (4 : ℂ) = ((4 : ℝ) : ℂ) by norm_num, Complex.conj_ofReal]
  refine ⟨hentry, ?_, ?_⟩
  · intro hherm
    rw [hH] at hherm
    have hc := herm_entry hherm 0 0
    rw [C3_core_entry, hz, add_zero, map_div₀, Complex.conj_I, h4] at hc
    have h8 : (8 : ℂ) * Complex.I = 0 := by
      field_simp at hc
      linear_combination - hc
    norm_num [Complex.I_ne_zero] at h8
  · rw [hentry, map_div₀, Complex.conj_I, h4,
      show Complex.I / 4 - -Complex.I / 4 = Complex.I / 2 by ring,
      map_div₀, Complex.abs_I]
    norm_num

/-! ### C2: the tensor-factor order of the excited hyperfine term -/

/-- The real 3×3 matrix with a single 1 in the (x, z) slot. -/
def A02 : Matrix (Fin 3) (Fin 3) ℝ :=
  fun i j => if i = 0 ∧ j = 2 then 1 else 0

/-- The excited hyperfine core in the ordering the spec's fixed global
tensor order `[electron, ion-nucleus, neighbours…]` prescribes: electron
factor `(A_es·S)_i` in the FIRST Kronecker slot, ion-nucleus operator
`I_i` in the second (the comparison definition for this refinement
claim; the source instead computes `np.kron(I[i], (A_es @ Sv3)[i])`). -/
def HHF_es_core_specOrder (tS tI : ℕ) (A : Matrix (Fin 3) (Fin 3) ℝ) :
    Matrix (Fin ((tS + 1) * (tI + 1))) (Fin ((tS + 1) * (tI + 1))) ℂ :=
  ∑ i, kronF (applyA A (Svec tS) i) (Svec tI i)

/-- The spec-ordered excited hyperfine term, expanded into the host
spaces. -/
def initialize_HHF_es_specOrder (tS tI : ℕ) (A : Matrix (Fin 3) (Fin 3) ℝ)
    (l : List Neighbour) : Np :=
  expandNb (Np.mat ((tS + 1) * (tI + 1)) (HHF_es_core_specOrder tS tI A)) l

lemma applyA_A02_0 : applyA A02 (Svec 1) 0 = szM 1 := by
  unfold applyA A02 Svec
  rw [Fin.sum_univ_three]
  rw [if_neg (by decide), if_neg (by decide), if_pos (by decide)]
  simp

lemma applyA_A02_1 : applyA A02 (Svec 1) 1 = 0 := by
  unfold applyA A02 Svec
  rw [Fin.sum_univ_three]
  rw [if_neg (by decide), if_neg (by decide), if_neg (by decide)]
  simp

lemma applyA_A02_2 : applyA A02 (Svec 1) 2 = 0 := by
  unfold applyA A02 Svec
  rw [Fin.sum_univ_three]
  rw [if_neg (by decide), if_neg (by decide), if_neg (by decide)]
  simp

lemma C2_code_entry :
    SpinSystem.HHF_es_core 1 1 A02 0 1 = 0 := by
  unfold SpinSystem.HHF_es_core
  rw [Matrix.sum_apply, Fin.sum_univ_three, applyA_A02_0, applyA_A02_1,
    applyA_A02_2, SpinSystem.kronF_zero_right, SpinSystem.kronF_zero_right]
  have hk : kronF (Svec 1 0) (szM 1) 0 1 = 0 := by
    show Svec 1 0 ⟨0 / 2, _⟩ ⟨1 / 2, _⟩ * szM 1 ⟨0 % 2, _⟩ ⟨1 % 2, _⟩ = 0
    have hx : Svec 1 0 ⟨0 / 2, by omega⟩ ⟨1 / 2, by omega⟩ = 0 := by
      unfold Svec
      show sxM 1 0 0 = 0
      unfold sxM triM
      norm_num
    rw [hx, zero_mul]
  rw [hk]
  simp

lemma C2_spec_entry :
    HHF_es_core_specOrder 1 1 A02 0 1 = 1 / 4 := by
  unfold HHF_es_core_specOrder
  rw [Matrix.sum_apply, Fin.sum_univ_three, applyA_A02_0, applyA_A02_1,
    applyA_A02_2, SpinSystem.kronF_zero_left, SpinSystem.kronF_zero_left]
  have hk : kronF (szM 1) (Svec 1 0) 0 1 = 1 / 4 := by
    show szM 1 ⟨0 / 2, _⟩ ⟨1 / 2, _⟩ * Svec 1 0 ⟨0 % 2, _⟩ ⟨1 % 2, _⟩ = 1 / 4
    have hz : szM 1 ⟨0 / 2, by omega⟩ ⟨1 / 2, by omega⟩ = 1 / 2 := by
      show szM 1 0 0 = 1 / 2
      unfold szM diagM mval
      norm_num
    have hx : Svec 1 0 ⟨0 % 2, by omega⟩ ⟨1 % 2, by omega⟩ = 1 / 2 := by
      unfold Svec
      show sxM 1 0 1 = 1 / 2
      unfold sxM triM
      norm_num [aval_one_zero]
    rw [hz, hx]
    norm_num
  rw [hk]
  simp

/-- C2: the source embeds the excited hyperfine term as
`kron(I_i, (A_es·S)_i)` — ion-nucleus factor in the FIRST (electron)
slot — while the Zeeman and superhyperfine terms use the fixed order
`[electron, ion-nucleus, …]`.  At electron spin 1/2, ion-nucleus spin
1/2, `A_es = A02`, no neighbours, the code's term and the spec-ordered
term differ at entry `(0, 1)`: `0` versus `1/4`. -/
theorem claim_C2_hyperfine_order :
    Np.entry (SpinSystem.initialize_HHF_es 1 1 A02 []) 0 1 = 0 ∧
    Np.entry (initialize_HHF_es_specOrder 1 1 A02 []) 0 1 = 1 / 4 ∧
    SpinSystem.initialize_HHF_es 1 1 A02 []
      ≠ initialize_HHF_es_specOrder 1 1 A02 [] := by
  have h1 : Np.entry (SpinSystem.initialize_HHF_es 1 1 A02 []) 0 1 = 0 := by
    show (if h : 0 < 4 ∧ 1 < 4 then
        SpinSystem.HHF_es_core 1 1 A02 ⟨0, by omega⟩ ⟨1, by omega⟩ else 0) = 0
    rw [dif_pos (by omega)]
    exact C2_code_entry
  have h2 : Np.entry (initialize_HHF_es_specOrder 1 1 A02 []) 0 1 = 1 / 4 := by
    show (if h : 0 < 4 ∧ 1 < 4 then
        HHF_es_core_specOrder 1 1 A02 ⟨0, by omega⟩ ⟨1, by omega⟩ else 0) = 1 / 4
    rw [dif_pos (by omega)]
    exact C2_spec_entry
  refine ⟨h1, h2, ?_⟩
  intro heq
  rw [heq, h2] at h1
  norm_num at h1

/-! ### Claim C7: the angular-momentum commutation relations -/

/-- C7: for every half-integer spin `s = t/2 ≥ 0`, the three operators
produced by `generate_spin_matrices` satisfy `SxSy - SySx = i·Sz` and its
cyclic permutations `SySz - SzSy = i·Sx`, `SzSx - SxSz = i·Sy`, exactly
(so in particular within any floating-point tolerance). -/
theorem claim_C7_commutation (t : ℕ) :
    (generate_spin_matrices t).1 * (generate_spin_matrices t).2.1
        - (generate_spin_matrices t).2.1 * (generate_spin_matrices t).1
      = Complex.I • (generate_spin_matrices t).2.2 ∧
    (generate_spin_matrices t).2.1 * (generate_spin_matrices t).2.2
        - (generate_spin_matrices t).2.2 * (generate_spin_matrices t).2.1
      = Complex.I • (generate_spin_matrices t).1 ∧
    (generate_spin_matrices t).2.2 * (generate_spin_matrices t).1
        - (generate_spin_matrices t).1 * (generate_spin_matrices t).2.2
      = Complex.I • (generate_spin_matrices t).2.1 :=
  ⟨comm_xy t, comm_yz t, comm_zx t⟩

/-! ### Claim C8: spin 0 -/

/-- C8: for spin `0` the generator returns three square matrices of
dimension `1` whose single entry is `0` (the source's shape-`(1,)` zero
arrays, which act as `1 × 1` zero matrices everywhere they are used). -/
theorem claim_C8_spin_zero :
    (generate_spin_matrices 0).1 = (0 : Matrix (Fin 1) (Fin 1) ℂ) ∧
    (generate_spin_matrices 0).2.1 = (0 : Matrix (Fin 1) (Fin 1) ℂ) ∧
    (generate_spin_matrices 0).2.2 = (0 : Matrix (Fin 1) (Fin 1) ℂ) := by
  refine ⟨?_, ?_, ?_⟩ <;>
    · apply Matrix.ext
      intro r c
      fin_cases r
      fin_cases c
      simp [generate_spin_matrices, sxM, syM, szM, triM, diagM, mval]

/-! ### Claim C9: the `energies` manifold selector -/

/-- C9: with no field update requested, `energies` leaves the system
state unchanged, returns the stored (sorted) energy list for the
selectors `"gs"` and `"es"`, and raises (the spec's `InvalidStateError`)
exactly for every other selector. -/
theorem claim_C9_energies (eig : Np → List ℝ × Np) (s : SpinSystem)
    (state : String) :
    (SpinSystem.energies eig s state none none none).1 = s ∧
    (SpinSystem.energies eig s state none none none).2
      = (if state = "gs" then Except.ok s.E_gs
         else if state = "es" then Except.ok s.E_es
         else Except.error ()) ∧
    ((SpinSystem.energies eig s state none none none).2 = Except.error ()
      ↔ ¬(state = "gs" ∨ state = "es")) := by
  refine ⟨rfl, rfl, ?_⟩
  by_cases h1 : state = "gs"
  · simp [SpinSystem.energies, SpinSystem.maybe_update, h1]
  · by_cases h2 : state = "es" <;>
      simp [SpinSystem.energies, SpinSystem.maybe_update, h1, h2]

/-! ### Claim C6: `spin_transitions` enumerates the pairs `i < j` -/

/-- The intended enumeration: every unordered pair `(i, j)` with `i < j`
of one manifold's own eigenstate indices, carrying `E[j] - E[i]` and the
placeholder strength triple `(1, 1, 1)`. -/
def pair_enum (E : List ℝ) : List (ℝ × (ℕ × ℕ × ℕ)) :=
  (List.range E.length).flatMap (fun i =>
    (List.range' (i + 1) (E.length - (i + 1))).map (fun j =>
      (E.getD j 0 - E.getD i 0, (1, 1, 1))))

lemma sum_list_range (g : ℕ → ℕ) :
    ∀ n : ℕ, ((List.range n).map g).sum = ∑ i ∈ Finset.range n, g i := by
  intro n
  induction n with
  | zero => simp
  | succ m ih => rw [List.range_succ, List.map_append, List.sum_append,
      Finset.sum_range_succ, ih]; simp

lemma pair_enum_length (E : List ℝ) :
    (pair_enum E).length = E.length * (E.length - 1) / 2 := by
  unfold pair_enum
  rw [List.length_flatMap]
  have hmap : (List.range E.length).map
      (List.length ∘ fun i => (List.range' (i + 1) (E.length - (i + 1))).map
        (fun j => (E.getD j 0 - E.getD i 0, (1, 1, 1))))
      = (List.range E.length).map (fun i => E.length - 1 - i) := by
    apply List.map_congr_left
    intro i _
    simp only [Function.comp_apply, List.length_map, List.length_range']
    omega
  rw [hmap, sum_list_range]
  rw [Finset.sum_range_reflect (fun i => i) E.length, Finset.sum_range_id]

lemma flatMap_range_of_ge {β : Type} (f : ℕ → List β) (n m : ℕ) (h : n ≤ m)
    (hf : ∀ i, n ≤ i → f i = []) :
    (List.range m).flatMap f = (List.range n).flatMap f := by
  have hm : m = n + (m - n) := by omega
  rw [hm, List.range_add, List.flatMap_append]
  have h2 : ((List.range (m - n)).map (n + ·)).flatMap f = [] := by
    rw [List.flatMap_map]
    apply List.flatMap_eq_nil_iff.mpr
    intro i _
    exact hf _ (by omega)
  rw [h2, List.append_nil]

/-- C6: `spin_transitions` (with no field update) yields, for each
manifold independently, exactly the unordered pairs `(i, j)`, `i < j`, of
that manifold's own eigenstate indices, each entry carrying
`E[j] - E[i]` and the placeholder `(1, 1, 1)`; the counts are
`n(n-1)/2`.  The hypothesis `|E_gs| ≤ |E_es|` holds on every constructed
system (the ground dimension never exceeds the excited one), and makes
the source's sloppy ground-manifold outer bound `range(len(E_es))`
harmless: the extra indices contribute empty inner ranges. -/
theorem claim_C6_spin_transitions (eig : Np → List ℝ × Np) (s : SpinSystem)
    (hlen : s.E_gs.length ≤ s.E_es.length) :
    (SpinSystem.spin_transitions eig s none none none).2
      = (pair_enum s.E_gs, pair_enum s.E_es) ∧
    (pair_enum s.E_gs).length = s.E_gs.length * (s.E_gs.length - 1) / 2 ∧
    (pair_enum s.E_es).length = s.E_es.length * (s.E_es.length - 1) / 2 := by
  refine ⟨?_, pair_enum_length _, pair_enum_length _⟩
  show SpinSystem.spin_transitions_lists s.E_gs s.E_es = _
  unfold SpinSystem.spin_transitions_lists pair_enum
  refine Prod.ext ?_ rfl
  show (List.range s.E_es.length).flatMap _ = (List.range s.E_gs.length).flatMap _
  apply flatMap_range_of_ge _ _ _ hlen
  intro i hi
  have : s.E_gs.length - (i + 1) = 0 := by omega
  rw [this]
  rfl

/-- Witness for C6 on a concrete state with spectra `[0, 1]` / `[0, 1, 2]`. -/
theorem claim_C6_witness :
    (SpinSystem.spin_transitions SpinSystem.eig0
        { tS := 0, tI := 0, g_gs := 0, g_es := 0, A_gs := 0, A_es := 0
          g_n_rei := 0, neighbours := [], HHF_gs := Np.err, HHF_es := Np.err
          H_SHF_gs := Np.err, H_SHF_es := Np.err, H_gs := Np.err
          H_es := Np.err, E_gs := [0, 1], E_es := [0, 1, 2]
          eigvec_gs := Np.err, eigvec_es := Np.err, multHattr := none }
        none none none).2
      = (pair_enum [0, 1], pair_enum [0, 1, 2]) ∧
    (pair_enum ([0, 1] : List ℝ)).length = 2 * (2 - 1) / 2 ∧
    (pair_enum ([0, 1, 2] : List ℝ)).length = 3 * (3 - 1) / 2 :=
  claim_C6_spin_transitions SpinSystem.eig0 _ (by norm_num)

/-! ### Claim C10: the optional-field-argument guard -/

lemma maybe_update_skip (eig : Np → List ℝ × Np) (s : SpinSystem)
    (B Btheta Bphi : Option ℝ) (h : B = none ∨ Btheta = none ∨ Bphi = none) :
    SpinSystem.maybe_update eig s B Btheta Bphi = s := by
  rcases B with _ | b
  · rfl
  · rcases Btheta with _ | th
    · rfl
    · rcases Bphi with _ | ph
      · rfl
      · simp at h

/-- C10 (amended: the skip behaviour and frame preservation hold for all
five query methods, and the four methods other than `branching_contrast`
return their results computed from the previously set field;
`branching_contrast` likewise performs no update and leaves the state
unchanged, but then fails on the unassigned `self.multH` attribute
instead of returning results — see the counterexample).  If any of the
three optional field arguments is `None`, every query method skips the
Zeeman rebuild and re-diagonalisation: the returned state is exactly the
input state, and the value is the one computed from the stored (previous)
field data. -/
theorem claim_C10_optional_args (eig : Np → List ℝ × Np) (s : SpinSystem)
    (B Btheta Bphi : Option ℝ)
    (h : B = none ∨ Btheta = none ∨ Bphi = none)
    (state : String) (cs : Bool) (lev : Option (ℕ × ℕ × ℕ)) :
    SpinSystem.maybe_update eig s B Btheta Bphi = s ∧
    SpinSystem.energies eig s state B Btheta Bphi
      = (s, (SpinSystem.energies eig s state none none none).2) ∧
    SpinSystem.spin_transitions eig s B Btheta Bphi
      = (s, SpinSystem.spin_transitions_lists s.E_gs s.E_es) ∧
    SpinSystem.optical_transitions eig s B Btheta Bphi cs
      = (s, (SpinSystem.optical_transitions eig s none none none cs).2) ∧
    SpinSystem.superhyperfine_levels eig s state B Btheta Bphi
      = SpinSystem.superhyperfine_levels eig s state none none none ∧
    SpinSystem.branching_contrast eig s B Btheta Bphi lev
      = SpinSystem.branching_contrast eig s none none none lev := by
  have hsk := maybe_update_skip eig s B Btheta Bphi h
  have hsk0 : SpinSystem.maybe_update eig s none none none = s := rfl
  refine ⟨hsk, ?_, ?_, ?_, ?_, ?_⟩
  · unfold SpinSystem.energies
    rw [hsk, hsk0]
  · unfold SpinSystem.spin_transitions
    rw [hsk]
  · unfold SpinSystem.optical_transitions
    rw [hsk, hsk0]
  · simp only [SpinSystem.superhyperfine_levels, SpinSystem.energies, hsk, hsk0]
  · unfold SpinSystem.branching_contrast
    rw [hsk, hsk0]

/-- A minimal concrete state for witnesses. -/
def Ssimple : SpinSystem :=
  { tS := 0, tI := 0, g_gs := 0, g_es := 0, A_gs := 0, A_es := 0
    g_n_rei := 0, neighbours := [], HHF_gs := Np.err, HHF_es := Np.err
    H_SHF_gs := Np.err, H_SHF_es := Np.err, H_gs := Np.err
    H_es := Np.err, E_gs := [0], E_es := [0]
    eigvec_gs := Np.err, eigvec_es := Np.err, multHattr := none }

/-- Witness for C10: `B = none`, `B_theta`/`B_phi` given. -/
theorem claim_C10_witness :
    SpinSystem.maybe_update SpinSystem.eig0 Ssimple none (some 1) (some 1)
        = Ssimple ∧
    SpinSystem.energies SpinSystem.eig0 Ssimple "gs" none (some 1) (some 1)
      = (Ssimple,
          (SpinSystem.energies SpinSystem.eig0 Ssimple "gs" none none none).2) ∧
    SpinSystem.spin_transitions SpinSystem.eig0 Ssimple none (some 1) (some 1)
      = (Ssimple, SpinSystem.spin_transitions_lists Ssimple.E_gs Ssimple.E_es) ∧
    SpinSystem.optical_transitions SpinSystem.eig0 Ssimple none (some 1) (some 1)
        false
      = (Ssimple,
          (SpinSystem.optical_transitions SpinSystem.eig0 Ssimple
            none none none false).2) ∧
    SpinSystem.superhyperfine_levels SpinSystem.eig0 Ssimple "gs" none (some 1)
        (some 1)
      = SpinSystem.superhyperfine_levels SpinSystem.eig0 Ssimple "gs"
          none none none ∧
    SpinSystem.branching_contrast SpinSystem.eig0 Ssimple none (some 1) (some 1)
        none
      = SpinSystem.branching_contrast SpinSystem.eig0 Ssimple
          none none none none :=
  claim_C10_optional_args SpinSystem.eig0 Ssimple none (some 1) (some 1)
    (Or.inl rfl) "gs" false none

/-- C10 counterexample: with a missing field argument,
`branching_contrast` on a freshly built system does leave the state
unchanged but produces NO results — the claim's "returns results computed
from the previously set field" fails for it (the method dies on the
never-assigned `self.multH`). -/
theorem claim_C10_counterexample :
    (SpinSystem.branching_contrast SpinSystem.eig0 C3sys none none none none).1
        = C3sys ∧
    (SpinSystem.branching_contrast SpinSystem.eig0 C3sys none none none none).2
        = none :=
  ⟨rfl, rfl⟩

/-! ### Claim C5: `branching_contrast` -/

/-- C5: `__init__` never assigns `self.multH`, and the very first
statement of `branching_contrast` reads it, so on any system built by
`__init__` (here: the Eu-like electron-spin-1/2, nuclear-spin-0,
no-neighbour system) every call — with or without field arguments —
raises `AttributeError` and returns no squared matrix elements, no `R`
and no `rho`. -/
theorem claim_C5_branching_attribute (eig : Np → List ℝ × Np)
    (lev : Option (ℕ × ℕ × ℕ)) (B Btheta Bphi : Option ℝ) :
    (SpinSystem.init eig 1 0 0 0 0 0 0 []).multHattr = none ∧
    (SpinSystem.branching_contrast eig (SpinSystem.init eig 1 0 0 0 0 0 0 [])
        B Btheta Bphi lev).2 = none := by
  refine ⟨rfl, ?_⟩
  unfold SpinSystem.branching_contrast
  rcases B with _ | b <;> rcases Btheta with _ | th <;> rcases Bphi with _ | ph <;>
    rfl

end SpinBath
